import Mathlib

/-!
Verification of the graph-based financial fraud detection engine
(`fraud_detector.py`).

The Python source is embedded shallowly: transaction dictionaries become
structures, floating point numbers become exact rationals, `datetime`
timestamps become rationals measured in hours (so that the source's
`total_seconds() / 3600` difference is plain subtraction), and Python
dictionaries become association lists that keep insertion order.

The graph utilities imported from `utils` (graph construction, simple
cycle enumeration, centrality metrics, community detection) are not part
of the analysed sources; their outputs are modelled as explicit inputs
through the `GraphServices` structure below.
-/

namespace FraudDetector

/-- A transaction record (the loosely typed Python dict, made concrete). -/
structure Tx where
  transaction_id : String
  sender_id : String
  receiver_id : String
  amount : ℚ
  timestamp : ℚ
deriving DecidableEq, Repr

/-- Centrality metrics of one account, as produced by
`compute_centrality_metrics`. -/
structure Metrics where
  degree_centrality : ℚ
  betweenness_centrality : ℚ
  pagerank : ℚ
deriving DecidableEq, Repr

/-- Modelled from the spec: the outputs of the graph utilities of this
repository that are not under `src/` (`build_transaction_graph`,
`find_cycles_in_graph`, `compute_centrality_metrics`,
`detect_communities` from `utils`).  `nodes` is the node list of the
built graph, `findCycles m` is the list of simple cycles of length at
least `m` (spec §4.3 step 1), `metrics` is the centrality map in Python
dict order, and `communities` is the community partition. -/
structure GraphServices where
  nodes : List String
  findCycles : ℚ → List (List String)
  metrics : List (String × Metrics)
  communities : List (List String)

/-- The `detection_params` dictionary.  All values are numbers in Python;
they are embedded uniformly as rationals. -/
structure DetectionParams where
  cycle_min_length : ℚ
  cycle_max_length : ℚ
  cycle_time_window_hours : ℚ
  smurfing_threshold : ℚ
  smurfing_min_transactions : ℚ
  smurfing_time_window_hours : ℚ
  smurfing_amount_ratio : ℚ
  anomaly_degree_threshold : ℚ
  anomaly_burst_threshold : ℚ
  anomaly_burst_window_hours : ℚ
  anomaly_isolation_threshold : ℚ
deriving DecidableEq, Repr

/-- The defaults installed by `FraudDetector.__init__`. -/
def defaultParams : DetectionParams :=
  ⟨3, 10, 72, 10000, 5, 48, 8/10, 1/10, 20, 2, 7/10⟩

/-- Python's `x or default` merge of an optional override with the
configured default: `None` and the number `0` are falsy and yield the
default. -/
def orDefault (o : Option ℚ) (d : ℚ) : ℚ :=
  match o with
  | none => d
  | some v => if v = 0 then d else v

@[simp] theorem orDefault_none (d : ℚ) : orDefault none d = d := rfl

@[simp] theorem orDefault_zero (d : ℚ) : orDefault (some 0) d = d := by
  simp [orDefault]

/-- `np.mean` on a list of rationals (0 on the empty list, since `ℚ`
division by zero is 0). -/
def qMean (l : List ℚ) : ℚ := l.sum / l.length

/-- `np.var`: the population variance. -/
def qVariance (l : List ℚ) : ℚ :=
  (l.map (fun x => (x - qMean l) ^ 2)).sum / l.length

/-- `np.std` as used by the source: the square root of the population
variance.  Exact on rationals whose reduced numerator and denominator
are perfect squares (every input produced by the concrete test vectors
in this file is such a square); other values are sent to 0, which keeps
the function nonnegative, the only property the general theorems use. -/
def ratSqrt (q : ℚ) : ℚ :=
  if 0 ≤ q.num ∧ Nat.sqrt q.num.toNat * Nat.sqrt q.num.toNat = q.num.toNat
      ∧ Nat.sqrt q.den * Nat.sqrt q.den = q.den then
    (Nat.sqrt q.num.toNat : ℚ) / (Nat.sqrt q.den : ℚ)
  else 0

theorem ratSqrt_nonneg (q : ℚ) : 0 ≤ ratSqrt q := by
  unfold ratSqrt
  split
  · exact div_nonneg (by positivity) (by positivity)
  · exact le_refl 0

/-- The fold inside Python's `max(iterable, key=f)`: the running best is
replaced only when a strictly larger key appears, so the first maximal
element wins. -/
def pyMaxFold [LinearOrder β] (k : α → β) (b : α) (l : List α) : α :=
  l.foldl (fun acc y => if k acc < k y then y else acc) b

/-- Python's `max(l, key=k)`, `none` on the empty list (where Python
raises). -/
def pyMaxBy [LinearOrder β] (k : α → β) : List α → Option α
  | [] => none
  | x :: xs => some (pyMaxFold k x xs)

theorem pyMaxFold_spec [LinearOrder β] (k : α → β) :
    ∀ (l : List α) (b : α),
      (pyMaxFold k b l = b ∧ ∀ x ∈ l, k x ≤ k b) ∨
      (∃ p q, l = p ++ pyMaxFold k b l :: q ∧ k b < k (pyMaxFold k b l) ∧
        (∀ x ∈ p, k x < k (pyMaxFold k b l)) ∧
        (∀ x ∈ q, k x ≤ k (pyMaxFold k b l))) := by
  intro l
  induction l with
  | nil => intro b; left; exact ⟨rfl, by simp⟩
  | cons y ys ih =>
    intro b
    by_cases hby : k b < k y
    · have hstep : pyMaxFold k b (y :: ys) = pyMaxFold k y ys := by
        simp [pyMaxFold, hby]
      rcases ih y with ⟨heq, hall⟩ | ⟨p, q, hsplit, hlt, hp, hq⟩
      · right
        refine ⟨[], ys, ?_, ?_, by simp, ?_⟩
        · simp [hstep, heq]
        · rw [hstep, heq]; exact hby
        · intro x hx; rw [hstep, heq]; exact hall x hx
      · right
        refine ⟨y :: p, q, ?_, ?_, ?_, ?_⟩
        · rw [hstep]; conv_lhs => rw [hsplit]
          rfl
        · rw [hstep]; exact lt_trans hby hlt
        · intro x hx
          rw [hstep]
          rcases List.mem_cons.mp hx with hxy | hxp
          · subst hxy; exact hlt
          · exact hp x hxp
        · intro x hx; rw [hstep]; exact hq x hx
    · have hstep : pyMaxFold k b (y :: ys) = pyMaxFold k b ys := by
        simp [pyMaxFold, hby]
      rcases ih b with ⟨heq, hall⟩ | ⟨p, q, hsplit, hlt, hp, hq⟩
      · left
        refine ⟨by rw [hstep, heq], ?_⟩
        intro x hx
        rcases List.mem_cons.mp hx with hxy | hxp
        · subst hxy; exact le_of_not_lt hby
        · exact hall x hxp
      · right
        refine ⟨y :: p, q, ?_, ?_, ?_, ?_⟩
        · rw [hstep]; conv_lhs => rw [hsplit]
          rfl
        · rw [hstep]; exact hlt
        · intro x hx
          rw [hstep]
          rcases List.mem_cons.mp hx with hxy | hxp
          · subst hxy; exact lt_of_le_of_lt (le_of_not_lt hby) hlt
          · exact hp x hxp
        · intro x hx; rw [hstep]; exact hq x hx

/-- Python `max` returns a maximal element, and more precisely the first
maximal one: everything strictly before it in the list has a strictly
smaller key. -/
theorem pyMaxBy_spec [LinearOrder β] (k : α → β) (l : List α) (r : α)
    (h : pyMaxBy k l = some r) :
    (∀ x ∈ l, k x ≤ k r) ∧ ∃ p q, l = p ++ r :: q ∧ ∀ x ∈ p, k x < k r := by
  match l with
  | [] => simp [pyMaxBy] at h
  | x :: xs =>
    have hr : r = pyMaxFold k x xs := by
      simp [pyMaxBy] at h; exact h.symm
    rcases pyMaxFold_spec k xs x with ⟨heq, hall⟩ | ⟨p, q, hsplit, hlt, hp, hq⟩
    · subst hr
      rw [heq]
      constructor
      · intro z hz
        rcases List.mem_cons.mp hz with hzx | hzs
        · subst hzx; exact le_refl _
        · exact hall z hzs
      · exact ⟨[], xs, by simp, by simp⟩
    · subst hr
      constructor
      · intro z hz
        rcases List.mem_cons.mp hz with hzx | hzs
        · subst hzx; exact le_of_lt hlt
        · rw [hsplit] at hzs
          rcases List.mem_append.mp hzs with hzp | hzq
          · exact le_of_lt (hp z hzp)
          · rcases List.mem_cons.mp hzq with hzr | hzq
            · subst hzr; exact le_refl _
            · exact hq z hzq
      · refine ⟨x :: p, q, ?_, ?_⟩
        · conv_lhs => rw [hsplit]
          rfl
        · intro z hz
          rcases List.mem_cons.mp hz with hzx | hzp
          · subst hzx; exact hlt
          · exact hp z hzp

theorem pyMaxBy_mem [LinearOrder β] (k : α → β) (l : List α) (r : α)
    (h : pyMaxBy k l = some r) : r ∈ l := by
  rcases (pyMaxBy_spec k l r h).2 with ⟨p, q, hsplit, _⟩
  rw [hsplit]
  simp

theorem pyMaxBy_eq_none_iff [LinearOrder β] (k : α → β) (l : List α) :
    pyMaxBy k l = none ↔ l = [] := by
  cases l <;> simp [pyMaxBy]

theorem pyMaxBy_nil [LinearOrder β] (k : α → β) : pyMaxBy k [] = none := rfl

theorem pyMaxBy_cons [LinearOrder β] (k : α → β) (x : α) (xs : List α) :
    pyMaxBy k (x :: xs) = some (pyMaxFold k x xs) := rfl

/-- A `match`-free unfolding of `List.filterMap` used to evaluate the
detectors on concrete inputs. -/
theorem filterMap_cons_elim (f : α → Option β) (a : α) (l : List α) :
    List.filterMap f (a :: l)
      = (f a).elim (List.filterMap f l) (fun b => b :: List.filterMap f l) := by
  cases h : f a <;> simp [h]

/-- Insertion step of a stable descending sort by key `k`: the new
element `x` is placed before the first element whose key is not strictly
greater, so elements with equal keys keep their original order.  This is
extensionally Python's stable `list.sort(key=k, reverse=True)`. -/
def insDesc (k : α → ℚ) (x : α) : List α → List α
  | [] => [x]
  | y :: ys => if k x < k y then y :: insDesc k x ys else x :: y :: ys

/-- Stable sort by key `k`, descending (Python
`list.sort(key=k, reverse=True)`). -/
def pySortDesc (k : α → ℚ) : List α → List α
  | [] => []
  | x :: xs => insDesc k x (pySortDesc k xs)

theorem mem_insDesc (k : α → ℚ) (x : α) (l : List α) (a : α) :
    a ∈ insDesc k x l ↔ a = x ∨ a ∈ l := by
  induction l with
  | nil => simp [insDesc]
  | cons y ys ih =>
    by_cases h : k x < k y
    · simp only [insDesc, if_pos h, List.mem_cons, ih]
      tauto
    · simp only [insDesc, if_neg h, List.mem_cons]

theorem insDesc_perm (k : α → ℚ) (x : α) (l : List α) :
    List.Perm (insDesc k x l) (x :: l) := by
  induction l with
  | nil => simp [insDesc]
  | cons y ys ih =>
    by_cases h : k x < k y
    · simp only [insDesc, if_pos h]
      exact List.Perm.trans (List.Perm.cons y ih) (List.Perm.swap x y ys)
    · simp only [insDesc, if_neg h]
      exact List.Perm.refl _

theorem pySortDesc_perm (k : α → ℚ) (l : List α) :
    List.Perm (pySortDesc k l) l := by
  induction l with
  | nil => simp [pySortDesc]
  | cons x xs ih =>
    exact List.Perm.trans (insDesc_perm k x (pySortDesc k xs)) (List.Perm.cons x ih)

theorem mem_pySortDesc (k : α → ℚ) (l : List α) (a : α) :
    a ∈ pySortDesc k l ↔ a ∈ l :=
  (pySortDesc_perm k l).mem_iff

theorem insDesc_sorted (k : α → ℚ) (x : α) (l : List α)
    (hl : l.Pairwise (fun a b => k b ≤ k a)) :
    (insDesc k x l).Pairwise (fun a b => k b ≤ k a) := by
  induction l with
  | nil => simp [insDesc]
  | cons y ys ih =>
    rcases List.pairwise_cons.mp hl with ⟨hy, hys⟩
    by_cases h : k x < k y
    · simp only [insDesc, if_pos h]
      refine List.pairwise_cons.mpr ⟨?_, ih hys⟩
      intro z hz
      rcases (mem_insDesc k x ys z).mp hz with hzx | hzy
      · subst hzx; exact le_of_lt h
      · exact hy z hzy
    · simp only [insDesc, if_neg h]
      refine List.pairwise_cons.mpr ⟨?_, hl⟩
      intro z hz
      rcases List.mem_cons.mp hz with hzy | hzy
      · subst hzy; exact le_of_not_lt h
      · exact le_trans (hy z hzy) (le_of_not_lt h)

theorem pySortDesc_sorted (k : α → ℚ) (l : List α) :
    (pySortDesc k l).Pairwise (fun a b => k b ≤ k a) := by
  induction l with
  | nil => simp [pySortDesc]
  | cons x xs ih => exact insDesc_sorted k x (pySortDesc k xs) ih

/-- Stability of `insDesc` phrased through an arbitrary relation `Q`
that holds automatically across strict key decreases. -/
theorem insDesc_pairwise (k : α → ℚ) {Q : α → α → Prop}
    (hQ : ∀ a b, k a < k b → Q b a) (x : α) (l : List α)
    (hx : ∀ y ∈ l, Q x y) (hl : l.Pairwise Q) :
    (insDesc k x l).Pairwise Q := by
  induction l with
  | nil => simp [insDesc]
  | cons y ys ih =>
    rcases List.pairwise_cons.mp hl with ⟨hy, hys⟩
    by_cases h : k x < k y
    · simp only [insDesc, if_pos h]
      refine List.pairwise_cons.mpr ⟨?_, ?_⟩
      · intro z hz
        rcases (mem_insDesc k x ys z).mp hz with hzx | hzy
        · rw [hzx]; exact hQ x y h
        · exact hy z hzy
      · exact ih (fun z hz => hx z (List.mem_cons_of_mem y hz)) hys
    · simp only [insDesc, if_neg h]
      exact List.pairwise_cons.mpr ⟨hx, hl⟩

theorem pySortDesc_pairwise (k : α → ℚ) {Q : α → α → Prop}
    (hQ : ∀ a b, k a < k b → Q b a) (l : List α) (hl : l.Pairwise Q) :
    (pySortDesc k l).Pairwise Q := by
  induction l with
  | nil => exact List.Pairwise.nil
  | cons x xs ih =>
    rcases List.pairwise_cons.mp hl with ⟨hx, hxs⟩
    refine insDesc_pairwise k hQ x (pySortDesc k xs) ?_ (ih hxs)
    intro y hy
    exact hx y ((mem_pySortDesc k xs y).mp hy)

/-- Insertion step of a stable ascending sort by key `k`
(Python's stable `list.sort(key=k)`). -/
def insAsc (k : α → ℚ) (x : α) : List α → List α
  | [] => [x]
  | y :: ys => if k y < k x then y :: insAsc k x ys else x :: y :: ys

/-- Stable sort by key `k`, ascending (Python `list.sort(key=k)`). -/
def pySortAsc (k : α → ℚ) : List α → List α
  | [] => []
  | x :: xs => insAsc k x (pySortAsc k xs)

theorem mem_insAsc (k : α → ℚ) (x : α) (l : List α) (a : α) :
    a ∈ insAsc k x l ↔ a = x ∨ a ∈ l := by
  induction l with
  | nil => simp [insAsc]
  | cons y ys ih =>
    by_cases h : k y < k x
    · simp only [insAsc, if_pos h, List.mem_cons, ih]
      tauto
    · simp only [insAsc, if_neg h, List.mem_cons]

theorem insAsc_perm (k : α → ℚ) (x : α) (l : List α) :
    List.Perm (insAsc k x l) (x :: l) := by
  induction l with
  | nil => simp [insAsc]
  | cons y ys ih =>
    by_cases h : k y < k x
    · simp only [insAsc, if_pos h]
      exact List.Perm.trans (List.Perm.cons y ih) (List.Perm.swap x y ys)
    · simp only [insAsc, if_neg h]
      exact List.Perm.refl _

theorem pySortAsc_perm (k : α → ℚ) (l : List α) :
    List.Perm (pySortAsc k l) l := by
  induction l with
  | nil => simp [pySortAsc]
  | cons x xs ih =>
    exact List.Perm.trans (insAsc_perm k x (pySortAsc k xs)) (List.Perm.cons x ih)

theorem mem_pySortAsc (k : α → ℚ) (l : List α) (a : α) :
    a ∈ pySortAsc k l ↔ a ∈ l :=
  (pySortAsc_perm k l).mem_iff

theorem insAsc_sorted (k : α → ℚ) (x : α) (l : List α)
    (hl : l.Pairwise (fun a b => k a ≤ k b)) :
    (insAsc k x l).Pairwise (fun a b => k a ≤ k b) := by
  induction l with
  | nil => simp [insAsc]
  | cons y ys ih =>
    rcases List.pairwise_cons.mp hl with ⟨hy, hys⟩
    by_cases h : k y < k x
    · simp only [insAsc, if_pos h]
      refine List.pairwise_cons.mpr ⟨?_, ih hys⟩
      intro z hz
      rcases (mem_insAsc k x ys z).mp hz with hzx | hzy
      · subst hzx; exact le_of_lt h
      · exact hy z hzy
    · simp only [insAsc, if_neg h]
      refine List.pairwise_cons.mpr ⟨?_, hl⟩
      intro z hz
      rcases List.mem_cons.mp hz with hzy | hzy
      · subst hzy; exact le_of_not_lt h
      · exact le_trans (le_of_not_lt h) (hy z hzy)

theorem pySortAsc_sorted (k : α → ℚ) (l : List α) :
    (pySortAsc k l).Pairwise (fun a b => k a ≤ k b) := by
  induction l with
  | nil => simp [pySortAsc]
  | cons x xs ih => exact insAsc_sorted k x (pySortAsc k xs) ih

/-- Python `max(list)` on rationals; 0 on the empty list (where Python
raises, a case the detectors never reach). -/
def listMax (l : List ℚ) : ℚ :=
  match l with
  | [] => 0
  | x :: xs => xs.foldl max x

/-- Python `min(list)` on rationals; 0 on the empty list. -/
def listMin (l : List ℚ) : ℚ :=
  match l with
  | [] => 0
  | x :: xs => xs.foldl min x

theorem listMax_nil : listMax [] = 0 := rfl

theorem listMax_cons (x : ℚ) (xs : List ℚ) : listMax (x :: xs) = xs.foldl max x := rfl

theorem listMin_nil : listMin [] = 0 := rfl

theorem listMin_cons (x : ℚ) (xs : List ℚ) : listMin (x :: xs) = xs.foldl min x := rfl

theorem listMin_le_listMax (l : List ℚ) : listMin l ≤ listMax l := by
  match l with
  | [] => exact le_refl 0
  | x :: xs =>
    have hmin : ∀ (ys : List ℚ) (b : ℚ), ys.foldl min b ≤ b := by
      intro ys
      induction ys with
      | nil => intro b; exact le_refl b
      | cons y ys ih =>
        intro b
        exact le_trans (ih (min b y)) (min_le_left b y)
    have hmax : ∀ (ys : List ℚ) (b : ℚ), b ≤ ys.foldl max b := by
      intro ys
      induction ys with
      | nil => intro b; exact le_refl b
      | cons y ys ih =>
        intro b
        exact le_trans (le_max_left b y) (ih (max b y))
    exact le_trans (hmin xs x) (hmax xs x)

/-- `FraudDetector._calculate_cycle_risk_score`. -/
def calculate_cycle_risk_score (cycleLen : Nat) (total_amount : ℚ)
    (amounts : List ℚ) (time_span : ℚ) : ℚ :=
  let amount_score := min (total_amount / 100000) 1
  let variation_part :=
    if 1 < amounts.length then
      let amount_std := ratSqrt (qVariance amounts)
      let amount_mean := qMean amounts
      let variation_ratio := if 0 < amount_mean then amount_std / amount_mean else 1
      max 0 (1 - variation_ratio) * (25/100)
    else 0
  let time_score := max 0 (1 - time_span / 72)
  let length_score := min ((cycleLen : ℚ) / 10) 1
  min (amount_score * (3/10) + variation_part + time_score * (25/100)
    + length_score * (2/10)) 1

/-- The transactions with sender `cycle[i]` and receiver
`cycle[(i+1) % len(cycle)]` (the list comprehension inside
`_analyze_cycle`). -/
def edgeTxs (txs : List Tx) (cyc : List String) (i : Nat) : List Tx :=
  txs.filter (fun t =>
    decide (t.sender_id = cyc.getD i "") &&
    decide (t.receiver_id = cyc.getD ((i + 1) % cyc.length) ""))

/-- The loop of `_analyze_cycle` that picks, for each cycle edge, the
most recent matching transaction (Python `max` by timestamp), aborting
with `none` as soon as an edge has no transaction. -/
def collectReps (txs : List Tx) (cyc : List String) : List Nat → Option (List Tx)
  | [] => some []
  | i :: rest =>
    (pyMaxBy (fun t => t.timestamp) (edgeTxs txs cyc i)).bind (fun t =>
      (collectReps txs cyc rest).map (fun ts => t :: ts))

/-- One detected laundering cycle (the result dict of
`_analyze_cycle`). -/
structure CycleFinding where
  cycle : List String
  length : Nat
  total_amount : ℚ
  transactions : List Tx
  time_span_hours : ℚ
  amounts : List ℚ
  risk_score : ℚ
deriving DecidableEq, Repr

/-- `FraudDetector._analyze_cycle`. -/
def analyze_cycle (txs : List Tx) (cyc : List String)
    (time_window_hours : ℚ) : Option CycleFinding :=
  (collectReps txs cyc (List.range cyc.length)).bind (fun reps =>
    let timestamps := reps.map (fun t => t.timestamp)
    let time_span := listMax timestamps - listMin timestamps
    if time_window_hours < time_span then none
    else
      let amounts := reps.map (fun t => t.amount)
      some ⟨cyc, cyc.length, amounts.sum, reps, time_span, amounts,
        calculate_cycle_risk_score cyc.length amounts.sum amounts time_span⟩)

/-- `FraudDetector.detect_money_laundering_cycles`.  The candidate
cycles come from the modelled `find_cycles_in_graph`, called at the
effective minimum length exactly as the source does. -/
def detect_money_laundering_cycles (p : DetectionParams)
    (min_length max_length time_window_hours : Option ℚ)
    (gs : GraphServices) (txs : List Tx) : List CycleFinding :=
  let minL := orDefault min_length p.cycle_min_length
  let maxL := orDefault max_length p.cycle_max_length
  let W := orDefault time_window_hours p.cycle_time_window_hours
  pySortDesc (fun f => f.risk_score)
    ((gs.findCycles minL).filterMap (fun c =>
      if maxL ≠ 0 ∧ (c.length : ℚ) > maxL then none
      else analyze_cycle txs c W))

/-- One accepted time window inside `_analyze_smurfing_pattern`. -/
structure SmurfPattern where
  transactions : List Tx
  amounts : List ℚ
  cv : ℚ
deriving DecidableEq, Repr

/-- One detected smurfing pattern (the result dict of
`_analyze_smurfing_pattern`). -/
structure SmurfingFinding where
  pivot_account : String
  total_amount : ℚ
  num_transactions : Nat
  avg_amount : ℚ
  transactions : List Tx
  coefficient_of_variation : ℚ
  risk_score : ℚ
deriving DecidableEq, Repr

/-- `FraudDetector._calculate_smurfing_risk_score`. -/
def calculate_smurfing_risk_score (pat : SmurfPattern)
    (total_amount avg_amount threshold : ℚ) : ℚ :=
  let num_tx_score := min ((pat.transactions.length : ℚ) / 20) 1
  let amount_score := min (total_amount / 200000) 1
  let proximity_score := max 0 (1 - avg_amount / threshold)
  let similarity_score := 1 - pat.cv
  min (num_tx_score * (3/10) + amount_score * (3/10)
    + proximity_score * (2/10) + similarity_score * (2/10)) 1

/-- The prefix-anchored time windows scanned by
`_analyze_smurfing_pattern` and `_detect_burst_anomalies`: each start
position contributes the start transaction followed by the subsequent
ones up to (excluding) the first whose time difference from the start
exceeds the window width. -/
def timeWindows (W : ℚ) : List Tx → List (List Tx)
  | [] => []
  | t :: rest =>
    (t :: rest.takeWhile (fun u => decide (u.timestamp - t.timestamp ≤ W)))
      :: timeWindows W rest

/-- `FraudDetector._analyze_smurfing_pattern`.  Note that the window
acceptance test reads `smurfing_min_transactions` from the configured
parameters, not from the per-call effective value. -/
def analyze_smurfing_pattern (p : DetectionParams) (pivot_account : String)
    (incoming_txs : List Tx) (threshold time_window_hours amount_ratio : ℚ) :
    Option SmurfingFinding :=
  let sorted := pySortAsc (fun t => t.timestamp) incoming_txs
  let patterns := (timeWindows time_window_hours sorted).filterMap (fun w =>
    if p.smurfing_min_transactions ≤ (w.length : ℚ) then
      let amounts := w.map (fun t => t.amount)
      let amount_mean := qMean amounts
      if 0 < amount_mean then
        let cv := ratSqrt (qVariance amounts) / amount_mean
        if cv ≤ 1 - amount_ratio then some ⟨w, amounts, cv⟩ else none
      else none
    else none)
  (pyMaxBy (fun pat => pat.transactions.length) patterns).map (fun best =>
    let total_amount := best.amounts.sum
    let avg_amount := qMean best.amounts
    ⟨pivot_account, total_amount, best.transactions.length, avg_amount,
      best.transactions, best.cv,
      calculate_smurfing_risk_score best total_amount avg_amount threshold⟩)

/-- `FraudDetector.detect_smurfing`. -/
def detect_smurfing (p : DetectionParams)
    (threshold min_transactions time_window_hours amount_ratio : Option ℚ)
    (gs : GraphServices) (txs : List Tx) : List SmurfingFinding :=
  let thr := orDefault threshold p.smurfing_threshold
  let minTx := orDefault min_transactions p.smurfing_min_transactions
  let W := orDefault time_window_hours p.smurfing_time_window_hours
  let ratio := orDefault amount_ratio p.smurfing_amount_ratio
  pySortDesc (fun f => f.risk_score)
    (gs.nodes.filterMap (fun node =>
      let incoming_txs := txs.filter (fun t =>
        decide (t.receiver_id = node) && decide (t.amount < thr))
      if (incoming_txs.length : ℚ) < minTx then none
      else analyze_smurfing_pattern p node incoming_txs thr W ratio))

/-- The three anomaly families of `detect_network_anomalies`. -/
inductive AnomKind
  | hub
  | burst
  | isolated_community
deriving DecidableEq, Repr

/-- Position of each anomaly family in the concatenation assembled by
`detect_network_anomalies` (hubs first, then bursts, then isolated
communities). -/
def kindRank : AnomKind → Nat
  | .hub => 0
  | .burst => 1
  | .isolated_community => 2

/-- One network anomaly finding.  The Python dicts of the three families
share this flat record; fields that a family does not set keep a neutral
value. -/
structure NetFinding where
  anomaly_type : AnomKind
  account : String
  community : List String
  num_transactions : Nat
  transactions : List Tx
  internal_ratio : ℚ
  centrality_metrics : Metrics
  risk_score : ℚ
deriving DecidableEq, Repr

/-- `FraudDetector._calculate_hub_risk_score`. -/
def calculate_hub_risk_score (m : Metrics) (mean std : ℚ) : ℚ :=
  let z0 := if 0 < std then (m.degree_centrality - mean) / std else 0
  let z := min z0 5
  let betweenness_score := min (m.betweenness_centrality * 10) 1
  let pagerank_score := min (m.pagerank * 10) 1
  min (z / 5 * (4/10) + betweenness_score * (3/10) + pagerank_score * (3/10)) 1

/-- The `degree_centrality` column of the centrality map. -/
def degreeValues (mets : List (String × Metrics)) : List ℚ :=
  mets.map (fun pm => pm.2.degree_centrality)

/-- `FraudDetector._detect_hub_anomalies`, over the modelled centrality
map. -/
def detect_hub_anomalies (degree_threshold : ℚ)
    (mets : List (String × Metrics)) : List NetFinding :=
  if degreeValues mets = [] then []
  else
    let degree_mean := qMean (degreeValues mets)
    let degree_std := ratSqrt (qVariance (degreeValues mets))
    let dynamic_threshold := max degree_threshold (degree_mean + 2 * degree_std)
    mets.filterMap (fun pm =>
      if dynamic_threshold < pm.2.degree_centrality then
        some ⟨.hub, pm.1, [], 0, [], 0, pm.2,
          calculate_hub_risk_score pm.2 degree_mean degree_std⟩
      else none)

/-- The sender grouping dict of `_detect_burst_anomalies`: an
association list in first-occurrence order, each group in transaction
order. -/
def addToGroup (acc : List (String × List Tx)) (t : Tx) :
    List (String × List Tx) :=
  match acc with
  | [] => [(t.sender_id, [t])]
  | (s, g) :: rest =>
    if s = t.sender_id then (s, g ++ [t]) :: rest
    else (s, g) :: addToGroup rest t

/-- Group the transactions by `sender_id`, in Python dict insertion
order. -/
def groupBySender (txs : List Tx) : List (String × List Tx) :=
  txs.foldl addToGroup []

/-- `FraudDetector._calculate_burst_risk_score`. -/
def calculate_burst_risk_score (numTx : Nat)
    (threshold window_hours : ℚ) : ℚ :=
  let num_tx_score := min ((numTx : ℚ) / (threshold * 2)) 1
  let density := (numTx : ℚ) / window_hours
  let density_score := min (density / 20) 1
  min (num_tx_score * (5/10) + density_score * (5/10)) 1

/-- The inner index scan of `_detect_burst_anomalies`: the first
prefix-anchored window whose size reaches the threshold, if any
(the `break` after the first emission). -/
def firstBurstWindow (burst_threshold W : ℚ) : List Tx → Option (List Tx)
  | [] => none
  | t :: rest =>
    let w := t :: rest.takeWhile (fun u => decide (u.timestamp - t.timestamp ≤ W))
    if burst_threshold ≤ (w.length : ℚ) then some w
    else firstBurstWindow burst_threshold W rest

/-- `FraudDetector._detect_burst_anomalies`. -/
def detect_burst_anomalies (burst_threshold burst_window_hours : ℚ)
    (txs : List Tx) : List NetFinding :=
  (groupBySender txs).filterMap (fun sg =>
    if (sg.2.length : ℚ) < burst_threshold then none
    else
      (firstBurstWindow burst_threshold burst_window_hours
          (pySortAsc (fun t => t.timestamp) sg.2)).map (fun w =>
        ⟨.burst, sg.1, [], w.length, w, 0, ⟨0, 0, 0⟩,
          calculate_burst_risk_score w.length burst_threshold
            burst_window_hours⟩))

/-- `FraudDetector._calculate_community_risk_score`. -/
def calculate_community_risk_score (internal_ratio : ℚ) (size : Nat) : ℚ :=
  let ratio_score := internal_ratio
  let size_score := min ((size : ℚ) / 20) 1
  min (ratio_score * (6/10) + size_score * (4/10)) 1

/-- `FraudDetector._detect_isolated_communities`, over the modelled
community partition. -/
def detect_isolated_communities (isolation_threshold : ℚ)
    (communities : List (List String)) (txs : List Tx) : List NetFinding :=
  communities.filterMap (fun community =>
    if community.length < 3 then none
    else
      let internal_txs := txs.countP (fun t =>
        decide (t.sender_id ∈ community) && decide (t.receiver_id ∈ community))
      let external_txs := txs.countP (fun t =>
        (decide (t.sender_id ∈ community) || decide (t.receiver_id ∈ community))
          && !(decide (t.sender_id ∈ community) && decide (t.receiver_id ∈ community)))
      let total_txs := internal_txs + external_txs
      if total_txs = 0 then none
      else
        let internal_ratio := (internal_txs : ℚ) / (total_txs : ℚ)
        if isolation_threshold ≤ internal_ratio then
          some ⟨.isolated_community, "", community, 0, [], internal_ratio,
            ⟨0, 0, 0⟩,
            calculate_community_risk_score internal_ratio community.length⟩
        else none)

/-- `FraudDetector.detect_network_anomalies`. -/
def detect_network_anomalies (p : DetectionParams)
    (degree_threshold burst_threshold burst_window_hours
      isolation_threshold : Option ℚ)
    (gs : GraphServices) (txs : List Tx) : List NetFinding :=
  let degThr := orDefault degree_threshold p.anomaly_degree_threshold
  let bThr := orDefault burst_threshold p.anomaly_burst_threshold
  let bW := orDefault burst_window_hours p.anomaly_burst_window_hours
  let isoThr := orDefault isolation_threshold p.anomaly_isolation_threshold
  pySortDesc (fun f => f.risk_score)
    (detect_hub_anomalies degThr gs.metrics
      ++ detect_burst_anomalies bThr bW txs
      ++ detect_isolated_communities isoThr gs.communities txs)

/-- The enumerated key set of `detection_params`
(`key in self.detection_params`). -/
def knownParam (k : String) : Bool :=
  k == "cycle_min_length" || k == "cycle_max_length" ||
  k == "cycle_time_window_hours" || k == "smurfing_threshold" ||
  k == "smurfing_min_transactions" || k == "smurfing_time_window_hours" ||
  k == "smurfing_amount_ratio" || k == "anomaly_degree_threshold" ||
  k == "anomaly_burst_threshold" || k == "anomaly_burst_window_hours" ||
  k == "anomaly_isolation_threshold"

/-- `self.detection_params[key] = value` for a known key (identity on
unknown keys, which `set_detection_params` never reaches). -/
def applyParam (p : DetectionParams) (k : String) (v : ℚ) : DetectionParams :=
  if k == "cycle_min_length" then { p with cycle_min_length := v }
  else if k == "cycle_max_length" then { p with cycle_max_length := v }
  else if k == "cycle_time_window_hours" then
    { p with cycle_time_window_hours := v }
  else if k == "smurfing_threshold" then { p with smurfing_threshold := v }
  else if k == "smurfing_min_transactions" then
    { p with smurfing_min_transactions := v }
  else if k == "smurfing_time_window_hours" then
    { p with smurfing_time_window_hours := v }
  else if k == "smurfing_amount_ratio" then
    { p with smurfing_amount_ratio := v }
  else if k == "anomaly_degree_threshold" then
    { p with anomaly_degree_threshold := v }
  else if k == "anomaly_burst_threshold" then
    { p with anomaly_burst_threshold := v }
  else if k == "anomaly_burst_window_hours" then
    { p with anomaly_burst_window_hours := v }
  else if k == "anomaly_isolation_threshold" then
    { p with anomaly_isolation_threshold := v }
  else p

/-- `FraudDetector.set_detection_params`: the keyword arguments are
processed in order; a known key mutates the parameter dict in place, the
first unknown key raises `ValueError` (returned as `some key`), leaving
the mutations made so far in place. -/
def set_detection_params (p : DetectionParams) :
    List (String × ℚ) → DetectionParams × Option String
  | [] => (p, none)
  | kv :: rest =>
    if knownParam kv.1 then set_detection_params (applyParam p kv.1 kv.2) rest
    else (p, some kv.1)

/-! ### Evaluation helpers for concrete inputs -/

theorem ratSqrt_zero : ratSqrt 0 = 0 := by
  norm_num [ratSqrt]

/-! ### Concrete inputs used by the counterexamples and witnesses -/

/-- Three sub-threshold transactions into the pivot `P` within one
hour, with equal amounts. -/
def threeSmallTxs : List Tx :=
  [⟨"s1", "X", "P", 100, 0⟩, ⟨"s2", "X", "P", 100, 1⟩,
    ⟨"s3", "X", "P", 100, 2⟩]

/-- A graph whose only node is the pivot `P`. -/
def pivotOnlyGraph : GraphServices := ⟨["P"], fun _ => [], [], []⟩

/-- Transaction `U → V` with id `A`, tied on timestamp with `txUV_B`. -/
def txUV_A : Tx := ⟨"A", "U", "V", 10, 5⟩

/-- Transaction `U → V` with id `B`, tied on timestamp with `txUV_A`. -/
def txUV_B : Tx := ⟨"B", "U", "V", 20, 5⟩

/-- Transaction `V → U` closing the two-node cycle. -/
def txVU_C : Tx := ⟨"C", "V", "U", 10, 5⟩

/-- The transaction store for the timestamp-tie counterexample. -/
def tieTxs : List Tx := [txUV_A, txUV_B, txVU_C]

/-! ### Claim theorems -/

/-- **C10**: for each of the three detectors, an explicit override equal
to 0 is falsy under the Python `or` merge and therefore does not apply:
the configured default is used, exactly as when no override is passed. -/
theorem zero_overrides_use_config_defaults (p : DetectionParams)
    (gs : GraphServices) (txs : List Tx) :
    detect_money_laundering_cycles p (some 0) (some 0) (some 0) gs txs
      = detect_money_laundering_cycles p none none none gs txs
    ∧ detect_smurfing p (some 0) (some 0) (some 0) (some 0) gs txs
      = detect_smurfing p none none none none gs txs
    ∧ detect_network_anomalies p (some 0) (some 0) (some 0) (some 0) gs txs
      = detect_network_anomalies p none none none none gs txs := by
  refine ⟨?_, ?_, ?_⟩ <;>
    simp [detect_money_laundering_cycles, detect_smurfing,
      detect_network_anomalies]

set_option maxHeartbeats 2000000 in
/-- **C1** (code bug): the `min_transactions` override of
`detect_smurfing` does not reach the window acceptance test.  With the
default configuration (minimum 5) and an explicit override of 3, three
qualifying sub-threshold transactions produce no finding, while the very
same call against a configuration whose `smurfing_min_transactions` is 3
produces one: the inner test compares against the configured value, not
the per-call effective value. -/
theorem smurfing_min_override_ignored_in_window_test :
    detect_smurfing defaultParams none (some 3) none none pivotOnlyGraph
      threeSmallTxs = []
    ∧ (detect_smurfing { defaultParams with smurfing_min_transactions := 3 }
        none (some 3) none none pivotOnlyGraph threeSmallTxs).length = 1 := by
  constructor <;>
  · simp [detect_smurfing, analyze_smurfing_pattern, orDefault,
      pivotOnlyGraph, threeSmallTxs, pySortAsc, insAsc, pySortDesc, insDesc,
      timeWindows, qMean, qVariance, ratSqrt_zero, pyMaxBy_nil, pyMaxBy_cons,
      pyMaxFold, calculate_smurfing_risk_score, defaultParams,
      filterMap_cons_elim]
    try norm_num [detect_smurfing, analyze_smurfing_pattern, orDefault,
      pivotOnlyGraph, threeSmallTxs, pySortAsc, insAsc, pySortDesc, insDesc,
      timeWindows, qMean, qVariance, ratSqrt_zero, pyMaxBy_nil, pyMaxBy_cons,
      pyMaxFold, calculate_smurfing_risk_score, defaultParams,
      filterMap_cons_elim]
    try norm_num [detect_smurfing, analyze_smurfing_pattern, orDefault,
      pivotOnlyGraph, threeSmallTxs, pySortAsc, insAsc, pySortDesc, insDesc,
      timeWindows, qMean, qVariance, ratSqrt_zero, pyMaxBy_nil, pyMaxBy_cons,
      pyMaxFold, calculate_smurfing_risk_score, defaultParams,
      filterMap_cons_elim]

set_option maxHeartbeats 2000000 in
/-- **C2** (counterexample): for the candidate cycle `[U, V]` the edge
`(U, V)` carries two transactions tied on timestamp, with ids `A`
(earlier in the store) and `B` (lexicographically larger).  The claim
selects `B` as representative; the code (Python `max`, which keeps the
first maximal element) selects `A`. -/
theorem cycle_representative_tiebreak_counterexample :
    (analyze_cycle tieTxs ["U", "V"] 72).map
        (fun f => f.transactions.map (fun t => t.transaction_id))
      = some ["A", "C"]
    ∧ txUV_B ∈ edgeTxs tieTxs ["U", "V"] 0
    ∧ txUV_B.timestamp = txUV_A.timestamp
    ∧ txUV_A.transaction_id < txUV_B.transaction_id := by
  refine ⟨?_, ?_, rfl, ?_⟩
  · simp [analyze_cycle, collectReps, edgeTxs, tieTxs, txUV_A, txUV_B,
      txVU_C, pyMaxBy_nil, pyMaxBy_cons, pyMaxFold, listMax_nil, listMax_cons,
      listMin_nil, listMin_cons, List.range, List.range.loop,
      calculate_cycle_risk_score, qMean, qVariance, ratSqrt_zero,
      filterMap_cons_elim]
    try norm_num [analyze_cycle, collectReps, edgeTxs, tieTxs, txUV_A, txUV_B,
      txVU_C, pyMaxBy_nil, pyMaxBy_cons, pyMaxFold, listMax_nil, listMax_cons,
      listMin_nil, listMin_cons, List.range, List.range.loop,
      calculate_cycle_risk_score, qMean, qVariance, ratSqrt_zero,
      filterMap_cons_elim]
    try norm_num [analyze_cycle, collectReps, edgeTxs, tieTxs, txUV_A, txUV_B,
      txVU_C, pyMaxBy_nil, pyMaxBy_cons, pyMaxFold, listMax_nil, listMax_cons,
      listMin_nil, listMin_cons, List.range, List.range.loop,
      calculate_cycle_risk_score, qMean, qVariance, ratSqrt_zero,
      filterMap_cons_elim]
  · norm_num [edgeTxs, tieTxs, txUV_A, txUV_B, txVU_C]
  · rw [txUV_A, txUV_B]
    rw [String.lt_iff_toList_lt]
    decide

/-- **C3** (counterexample): a `set_detection_params` call mixing a
known and an unknown key raises on the unknown key but still mutates the
known key processed before it, so the configuration does not keep its
pre-call value. -/
theorem set_detection_params_partial_mutation :
    (set_detection_params defaultParams
        [("cycle_min_length", 4), ("bogus", 1)]).2 = some "bogus"
    ∧ (set_detection_params defaultParams
        [("cycle_min_length", 4), ("bogus", 1)]).1.cycle_min_length = 4
    ∧ defaultParams.cycle_min_length = 3 := by
  exact ⟨rfl, rfl, rfl⟩

/-- **C3** (amended): `set_detection_params` fails with `ValueError` at
the first unknown key, and on that failure the configuration equals the
pre-call configuration with exactly the known keys *preceding* the
unknown key applied, in order; later entries are not applied. -/
theorem set_detection_params_prefix_applied (p : DetectionParams)
    (pre : List (String × ℚ)) (k : String) (v : ℚ)
    (post : List (String × ℚ))
    (hpre : ∀ kv ∈ pre, knownParam kv.1 = true)
    (hk : knownParam k = false) :
    set_detection_params p (pre ++ (k, v) :: post)
      = (pre.foldl (fun q kv => applyParam q kv.1 kv.2) p, some k) := by
  induction pre generalizing p with
  | nil => simp [set_detection_params, hk]
  | cons kv rest ih =>
    have hkv : knownParam kv.1 = true := hpre kv (List.mem_cons_self kv rest)
    simp only [List.cons_append, set_detection_params, hkv, if_true,
      List.foldl_cons]
    exact ih (applyParam p kv.1 kv.2)
      (fun kv2 h2 => hpre kv2 (List.mem_cons_of_mem kv h2))

/-- Witness for the amended C3 at a concrete call. -/
theorem set_detection_params_prefix_applied_witness :
    set_detection_params defaultParams
        [("cycle_min_length", 4), ("bogus", 1)]
      = ({ defaultParams with cycle_min_length := 4 }, some "bogus") := by
  have h := set_detection_params_prefix_applied defaultParams
    [("cycle_min_length", 4)] "bogus" 1 [] (by decide) (by decide)
  simpa [applyParam] using h

/-! ### Inversion lemmas for the cycle detector -/

theorem collectReps_eq_some (txs : List Tx) (cyc : List String) :
    ∀ (idxs : List Nat) (l : List Tx), collectReps txs cyc idxs = some l →
      l.length = idxs.length
      ∧ ∀ j (hj : j < idxs.length) (hl : j < l.length),
          pyMaxBy (fun t => t.timestamp) (edgeTxs txs cyc (idxs.get ⟨j, hj⟩))
            = some (l.get ⟨j, hl⟩) := by
  intro idxs
  induction idxs with
  | nil =>
    intro l h
    simp only [collectReps, Option.some_inj] at h
    subst h
    refine ⟨rfl, ?_⟩
    intro j hj
    exact absurd hj (Nat.not_lt_zero j)
  | cons i rest ih =>
    intro l h
    simp only [collectReps] at h
    rw [Option.bind_eq_some] at h
    obtain ⟨t, ht, hmap⟩ := h
    rw [Option.map_eq_some'] at hmap
    obtain ⟨ts, hts, hl⟩ := hmap
    subst hl
    obtain ⟨hlen, hget⟩ := ih ts hts
    refine ⟨by simp [hlen], ?_⟩
    intro j hj hl2
    cases j with
    | zero => simpa using ht
    | succ j2 =>
      have hj2 : j2 < rest.length := Nat.lt_of_succ_lt_succ hj
      have hl3 : j2 < ts.length := Nat.lt_of_succ_lt_succ hl2
      simpa using hget j2 hj2 hl3

theorem collectReps_eq_none_of_empty_edge (txs : List Tx) (cyc : List String) :
    ∀ (idxs : List Nat), (∃ i ∈ idxs, edgeTxs txs cyc i = []) →
      collectReps txs cyc idxs = none := by
  intro idxs
  induction idxs with
  | nil =>
    rintro ⟨i, hi, _⟩
    exact absurd hi (List.not_mem_nil i)
  | cons i0 rest ih =>
    rintro ⟨i, hi, hempty⟩
    rcases List.mem_cons.mp hi with hie | hmem
    · subst hie
      simp [collectReps, hempty, pyMaxBy_nil]
    · simp [collectReps, ih ⟨i, hmem, hempty⟩]

theorem analyze_cycle_eq_some (txs : List Tx) (cyc : List String) (W : ℚ)
    (F : CycleFinding) (h : analyze_cycle txs cyc W = some F) :
    ∃ reps, collectReps txs cyc (List.range cyc.length) = some reps
      ∧ F.cycle = cyc ∧ F.length = cyc.length ∧ F.transactions = reps
      ∧ F.time_span_hours
          = listMax (reps.map (fun t => t.timestamp))
            - listMin (reps.map (fun t => t.timestamp))
      ∧ F.time_span_hours ≤ W
      ∧ F.amounts = reps.map (fun t => t.amount)
      ∧ F.total_amount = (reps.map (fun t => t.amount)).sum
      ∧ F.risk_score
          = calculate_cycle_risk_score cyc.length
              (reps.map (fun t => t.amount)).sum
              (reps.map (fun t => t.amount)) F.time_span_hours := by
  unfold analyze_cycle at h
  rw [Option.bind_eq_some] at h
  obtain ⟨reps, hreps, hF⟩ := h
  refine ⟨reps, hreps, ?_⟩
  by_cases hspan : W < listMax (reps.map (fun t => t.timestamp))
      - listMin (reps.map (fun t => t.timestamp))
  · simp [hspan] at hF
  · simp only [hspan, if_neg, if_false] at hF
    rw [Option.some_inj] at hF
    subst hF
    simp only [not_lt] at hspan
    exact ⟨rfl, rfl, rfl, rfl, hspan, rfl, rfl, rfl⟩

/-- Membership in an edge transaction list gives the sender/receiver
equations. -/
theorem mem_edgeTxs (txs : List Tx) (cyc : List String) (i : Nat) (t : Tx)
    (h : t ∈ edgeTxs txs cyc i) :
    t ∈ txs ∧ t.sender_id = cyc.getD i ""
      ∧ t.receiver_id = cyc.getD ((i + 1) % cyc.length) "" := by
  rw [edgeTxs, List.mem_filter] at h
  obtain ⟨hmem, hcond⟩ := h
  rw [Bool.and_eq_true, decide_eq_true_eq, decide_eq_true_eq] at hcond
  exact ⟨hmem, hcond.1, hcond.2⟩

/-- **C2** (amended): during cycle realization an edge with no matching
transaction discards the cycle; otherwise the representative of each
edge is a transaction of maximal timestamp, and among transactions tied
on that maximal timestamp it is the one occurring *first* in the stored
transaction list (Python `max` keeps the first maximal element), not the
one with the lexicographically largest transaction id. -/
theorem cycle_representative_first_most_recent (txs : List Tx)
    (cyc : List String) (W : ℚ) :
    ((∃ i, i < cyc.length ∧ edgeTxs txs cyc i = []) →
      analyze_cycle txs cyc W = none)
    ∧ ∀ F, analyze_cycle txs cyc W = some F →
        F.transactions.length = cyc.length
        ∧ ∀ j (hj : j < F.transactions.length),
            (∀ x ∈ edgeTxs txs cyc j,
              x.timestamp ≤ (F.transactions.get ⟨j, hj⟩).timestamp)
            ∧ ∃ p q, edgeTxs txs cyc j
                  = p ++ (F.transactions.get ⟨j, hj⟩) :: q
                ∧ ∀ x ∈ p, x.timestamp
                    < (F.transactions.get ⟨j, hj⟩).timestamp := by
  constructor
  · rintro ⟨i, hi, hempty⟩
    have hnone : collectReps txs cyc (List.range cyc.length) = none :=
      collectReps_eq_none_of_empty_edge txs cyc (List.range cyc.length)
        ⟨i, List.mem_range.mpr hi, hempty⟩
    unfold analyze_cycle
    rw [hnone]
    rfl
  · intro F hF
    obtain ⟨reps, hreps, _, _, htxs, _⟩ := analyze_cycle_eq_some txs cyc W F hF
    obtain ⟨hlen, hget⟩ := collectReps_eq_some txs cyc (List.range cyc.length)
      reps hreps
    subst htxs
    have hlen2 : F.transactions.length = cyc.length := by
      simpa using hlen
    refine ⟨hlen2, ?_⟩
    intro j hj
    have hjr : j < (List.range cyc.length).length := by
      simpa using hlen2 ▸ hj
    have hmax := hget j hjr hj
    simp only [List.get_eq_getElem, List.getElem_range] at hmax
    have hspec := pyMaxBy_spec (fun t => t.timestamp) (edgeTxs txs cyc j)
      (F.transactions.get ⟨j, hj⟩) hmax
    exact ⟨hspec.1, hspec.2⟩

/-- Witness for the amended C2: a store whose `V → U` edge is empty
discards the cycle, and on the tied-timestamp store the theorem applies
to the computed finding. -/
theorem cycle_representative_first_most_recent_witness :
    analyze_cycle [txUV_A] ["U", "V"] 72 = none := by
  refine (cycle_representative_first_most_recent [txUV_A] ["U", "V"] 72).1
    ⟨1, ?_, ?_⟩
  · norm_num
  · simp [edgeTxs, txUV_A]

/-- **C5**: every finding of `detect_money_laundering_cycles` realizes
its cycle edge by edge (one transaction per edge, with matching sender
and receiver under the wrap-around index), respects the effective time
window, and has its length between the effective minimum (guaranteed by
the enumeration contract of `find_cycles_in_graph`, modelled by
`hEnum`) and the effective maximum. -/
theorem cycle_finding_invariants (p : DetectionParams)
    (minL maxL W : Option ℚ) (gs : GraphServices) (txs : List Tx)
    (hEnum : ∀ m c, c ∈ gs.findCycles m → m ≤ (c.length : ℚ))
    (hmax : 0 < orDefault maxL p.cycle_max_length) :
    ∀ F ∈ detect_money_laundering_cycles p minL maxL W gs txs,
      F.transactions.length = F.length
      ∧ F.length = F.cycle.length
      ∧ (∀ j (hj : j < F.transactions.length),
          (F.transactions.get ⟨j, hj⟩).sender_id = F.cycle.getD j ""
          ∧ (F.transactions.get ⟨j, hj⟩).receiver_id
              = F.cycle.getD ((j + 1) % F.length) "")
      ∧ F.time_span_hours ≤ orDefault W p.cycle_time_window_hours
      ∧ orDefault minL p.cycle_min_length ≤ (F.length : ℚ)
      ∧ (F.length : ℚ) ≤ orDefault maxL p.cycle_max_length := by
  intro F hF
  simp only [detect_money_laundering_cycles] at hF
  rw [mem_pySortDesc] at hF
  rw [List.mem_filterMap] at hF
  obtain ⟨c, hc, heq⟩ := hF
  by_cases hskip : orDefault maxL p.cycle_max_length ≠ 0
      ∧ (c.length : ℚ) > orDefault maxL p.cycle_max_length
  · rw [if_pos hskip] at heq
    exact absurd heq (by simp)
  · rw [if_neg hskip] at heq
    obtain ⟨reps, hreps, hcyc, hlenc, htxs, _, hspan, _⟩ :=
      analyze_cycle_eq_some txs c (orDefault W p.cycle_time_window_hours)
        F heq
    subst htxs
    obtain ⟨hlen, hget⟩ := collectReps_eq_some txs c
      (List.range c.length) F.transactions hreps
    have hlenr : F.transactions.length = c.length := by simpa using hlen
    have htl : F.transactions.length = F.length := by
      rw [hlenc, hlenr]
    have hlc : F.length = F.cycle.length := by rw [hlenc, hcyc]
    refine ⟨htl, hlc, ?_, hspan, ?_, ?_⟩
    · intro j hj
      have hjc : j < c.length := by
        rw [hlenr] at hj
        exact hj
      have hjr : j < (List.range c.length).length := by simpa using hjc
      have hjrep : j < F.transactions.length := by rw [hlenr]; exact hjc
      have hmax2 := hget j hjr hjrep
      simp only [List.get_eq_getElem, List.getElem_range] at hmax2
      have hmem := pyMaxBy_mem (fun t => t.timestamp) (edgeTxs txs c j)
        (F.transactions.get ⟨j, hjrep⟩) hmax2
      obtain ⟨_, hs, hr⟩ := mem_edgeTxs txs c j
        (F.transactions.get ⟨j, hjrep⟩) hmem
      rw [hcyc, hlenc]
      exact ⟨hs, hr⟩
    · rw [hlenc]
      exact hEnum (orDefault minL p.cycle_min_length) c hc
    · rw [hlenc]
      rcases not_and_or.mp hskip with hz | hgt
      · exact absurd (ne_of_gt hmax) (by simpa using hz)
      · exact le_of_not_lt (by simpa using hgt)

/-- The graph oracle for the concrete cycle scenario: one candidate
cycle `[U, V]`, available once the requested minimum length is at most
2. -/
def cycGraph : GraphServices :=
  ⟨[], fun m => if m ≤ 2 then [["U", "V"]] else [], [], []⟩

/-- The finding produced by the concrete cycle scenario. -/
def tieFinding : CycleFinding :=
  ⟨["U", "V"], 2, 20, [txUV_A, txVU_C], 0, [10, 10], 27003/50000⟩

set_option maxHeartbeats 2000000 in
/-- `detect_money_laundering_cycles` evaluated on the concrete cycle
scenario. -/
theorem eval_detect_cycles :
    detect_money_laundering_cycles defaultParams (some 2) none none
      cycGraph tieTxs = [tieFinding] := by
  simp [detect_money_laundering_cycles, cycGraph, tieFinding, orDefault,
    defaultParams, analyze_cycle, collectReps, edgeTxs, tieTxs, txUV_A,
    txUV_B, txVU_C, pyMaxBy_nil, pyMaxBy_cons, pyMaxFold, listMax_nil,
    listMax_cons, listMin_nil, listMin_cons, List.range, List.range.loop,
    calculate_cycle_risk_score, qMean, qVariance, ratSqrt_zero,
    filterMap_cons_elim, pySortDesc, insDesc]
  try norm_num [detect_money_laundering_cycles, cycGraph, tieFinding,
    orDefault, defaultParams, analyze_cycle, collectReps, edgeTxs, tieTxs,
    txUV_A, txUV_B, txVU_C, pyMaxBy_nil, pyMaxBy_cons, pyMaxFold,
    listMax_nil, listMax_cons, listMin_nil, listMin_cons, List.range,
    List.range.loop, calculate_cycle_risk_score, qMean, qVariance,
    ratSqrt_zero, filterMap_cons_elim, pySortDesc, insDesc]

/-- Witness for C5 at the concrete cycle scenario. -/
theorem cycle_finding_invariants_witness :
    tieFinding.transactions.length = tieFinding.length
    ∧ tieFinding.length = tieFinding.cycle.length
    ∧ tieFinding.time_span_hours
        ≤ orDefault none defaultParams.cycle_time_window_hours
    ∧ orDefault (some 2) defaultParams.cycle_min_length
        ≤ (tieFinding.length : ℚ)
    ∧ (tieFinding.length : ℚ)
        ≤ orDefault none defaultParams.cycle_max_length := by
  have hmem : tieFinding ∈ detect_money_laundering_cycles defaultParams
      (some 2) none none cycGraph tieTxs := by
    rw [eval_detect_cycles]
    exact List.mem_singleton.mpr rfl
  have h := cycle_finding_invariants defaultParams (some 2) none none
    cycGraph tieTxs
    (by
      intro m c hc
      simp only [cycGraph] at hc
      by_cases hm : m ≤ 2
      · rw [if_pos hm] at hc
        rw [List.mem_singleton] at hc
        subst hc
        simpa using hm
      · rw [if_neg hm] at hc
        exact absurd hc (List.not_mem_nil c))
    (by norm_num [defaultParams])
    tieFinding hmem
  exact ⟨h.1, h.2.1, h.2.2.2.1, h.2.2.2.2.1, h.2.2.2.2.2⟩

/-! ### Inversion lemmas for the smurfing detector -/

/-- Every scanned window is the head of a suffix of the scanned list
followed by the `takeWhile` of its tail. -/
theorem mem_timeWindows (W : ℚ) :
    ∀ (l : List Tx) (w : List Tx), w ∈ timeWindows W l →
      ∃ pre t rest, l = pre ++ t :: rest
        ∧ w = t :: rest.takeWhile
            (fun u => decide (u.timestamp - t.timestamp ≤ W)) := by
  intro l
  induction l with
  | nil =>
    intro w hw
    simp [timeWindows] at hw
  | cons t rest ih =>
    intro w hw
    rw [timeWindows] at hw
    rcases List.mem_cons.mp hw with hw1 | hw2
    · exact ⟨[], t, rest, by simp, hw1⟩
    · obtain ⟨pre, t2, rest2, hsplit, hwin⟩ := ih w hw2
      exact ⟨t :: pre, t2, rest2, by rw [hsplit]; rfl, hwin⟩

theorem analyze_smurfing_eq_some (p : DetectionParams) (pivot : String)
    (incoming : List Tx) (thr W ratio : ℚ) (F : SmurfingFinding)
    (h : analyze_smurfing_pattern p pivot incoming thr W ratio = some F) :
    ∃ w, w ∈ timeWindows W (pySortAsc (fun t => t.timestamp) incoming)
      ∧ p.smurfing_min_transactions ≤ (w.length : ℚ)
      ∧ 0 < qMean (w.map (fun t => t.amount))
      ∧ F.pivot_account = pivot
      ∧ F.transactions = w
      ∧ F.num_transactions = w.length
      ∧ F.total_amount = (w.map (fun t => t.amount)).sum
      ∧ F.avg_amount = qMean (w.map (fun t => t.amount))
      ∧ F.coefficient_of_variation
          = ratSqrt (qVariance (w.map (fun t => t.amount)))
            / qMean (w.map (fun t => t.amount))
      ∧ F.coefficient_of_variation ≤ 1 - ratio
      ∧ F.risk_score
          = calculate_smurfing_risk_score
              ⟨w, w.map (fun t => t.amount),
                ratSqrt (qVariance (w.map (fun t => t.amount)))
                  / qMean (w.map (fun t => t.amount))⟩
              (w.map (fun t => t.amount)).sum
              (qMean (w.map (fun t => t.amount))) thr := by
  unfold analyze_smurfing_pattern at h
  rw [Option.map_eq_some'] at h
  obtain ⟨best, hbest, hFeq⟩ := h
  have hmem := pyMaxBy_mem (fun pat => pat.transactions.length) _ best hbest
  rw [List.mem_filterMap] at hmem
  obtain ⟨w, hw, haccept⟩ := hmem
  by_cases h1 : p.smurfing_min_transactions ≤ ((w.length : ℚ))
  · rw [if_pos h1] at haccept
    by_cases h2 : 0 < qMean (w.map (fun t => t.amount))
    · rw [if_pos h2] at haccept
      by_cases h3 : ratSqrt (qVariance (w.map (fun t => t.amount)))
          / qMean (w.map (fun t => t.amount)) ≤ 1 - ratio
      · rw [if_pos h3] at haccept
        rw [Option.some_inj] at haccept
        subst haccept
        subst hFeq
        exact ⟨w, hw, h1, h2, rfl, rfl, rfl, rfl, rfl, rfl, h3, rfl⟩
      · rw [if_neg h3] at haccept
        exact absurd haccept (by simp)
    · rw [if_neg h2] at haccept
      exact absurd haccept (by simp)
  · rw [if_neg h1] at haccept
    exact absurd haccept (by simp)

/-- **C6**: every finding of `detect_smurfing` has only transactions
into the pivot account, each below the effective threshold; all of the
finding's transactions lie within the effective time window of its
earliest transaction; and its coefficient of variation is at most
`1 - effective amount_ratio`. -/
theorem smurfing_finding_invariants (p : DetectionParams)
    (thr minTx W ratio : Option ℚ) (gs : GraphServices) (txs : List Tx)
    (hW : 0 ≤ orDefault W p.smurfing_time_window_hours) :
    ∀ F ∈ detect_smurfing p thr minTx W ratio gs txs,
      (∀ t ∈ F.transactions, t.receiver_id = F.pivot_account
        ∧ t.amount < orDefault thr p.smurfing_threshold)
      ∧ (∃ t0 ∈ F.transactions,
          (∀ t ∈ F.transactions, t0.timestamp ≤ t.timestamp)
          ∧ ∀ t ∈ F.transactions, t.timestamp - t0.timestamp
              ≤ orDefault W p.smurfing_time_window_hours)
      ∧ F.coefficient_of_variation
          ≤ 1 - orDefault ratio p.smurfing_amount_ratio := by
  intro F hF
  simp only [detect_smurfing] at hF
  rw [mem_pySortDesc, List.mem_filterMap] at hF
  obtain ⟨node, hnode, heq⟩ := hF
  set thrE := orDefault thr p.smurfing_threshold with hthrE
  set WE := orDefault W p.smurfing_time_window_hours with hWE
  set incoming := txs.filter (fun t =>
    decide (t.receiver_id = node) && decide (t.amount < thrE)) with hinc
  by_cases hskip : ((incoming.length : ℚ))
      < orDefault minTx p.smurfing_min_transactions
  · rw [if_pos hskip] at heq
    exact absurd heq (by simp)
  · rw [if_neg hskip] at heq
    obtain ⟨w, hw, _, _, hpivot, htrans, _, _, _, _, hcv, _⟩ :=
      analyze_smurfing_eq_some p node incoming thrE WE
        (orDefault ratio p.smurfing_amount_ratio) F heq
    obtain ⟨pre, t0, rest, hsplit, hwin⟩ := mem_timeWindows WE
      (pySortAsc (fun t => t.timestamp) incoming) w hw
    have hsuffix : List.Sublist (t0 :: rest)
        (pySortAsc (fun t => t.timestamp) incoming) := by
      rw [hsplit]
      exact List.sublist_append_right pre (t0 :: rest)
    have hsorted : (t0 :: rest).Pairwise
        (fun a b => a.timestamp ≤ b.timestamp) :=
      (pySortAsc_sorted (fun t => t.timestamp) incoming).sublist hsuffix
    have ht0rest : ∀ u ∈ rest, t0.timestamp ≤ u.timestamp :=
      (List.pairwise_cons.mp hsorted).1
    have hmemw : ∀ u ∈ w, u ∈ incoming := by
      intro u hu
      rw [hwin] at hu
      rcases List.mem_cons.mp hu with hut | hutw
      · subst hut
        exact (mem_pySortAsc _ incoming u).mp
          (hsuffix.subset (List.mem_cons_self u rest))
      · have hur : u ∈ rest := (List.takeWhile_sublist _).subset hutw
        exact (mem_pySortAsc _ incoming u).mp
          (hsuffix.subset (List.mem_cons_of_mem t0 hur))
    have hcond : ∀ u ∈ w, u.receiver_id = node ∧ u.amount < thrE := by
      intro u hu
      have := hmemw u hu
      rw [hinc, List.mem_filter] at this
      obtain ⟨_, hc⟩ := this
      rw [Bool.and_eq_true, decide_eq_true_eq, decide_eq_true_eq] at hc
      exact hc
    refine ⟨?_, ?_, ?_⟩
    · intro t ht
      rw [htrans] at ht
      obtain ⟨hrecv, hamt⟩ := hcond t ht
      rw [hpivot]
      exact ⟨hrecv, hamt⟩
    · refine ⟨t0, ?_, ?_, ?_⟩
      · rw [htrans, hwin]
        exact List.mem_cons_self t0 _
      · intro t ht
        rw [htrans, hwin] at ht
        rcases List.mem_cons.mp ht with htt | htw
        · subst htt; exact le_refl _
        · exact ht0rest t ((List.takeWhile_sublist _).subset htw)
      · intro t ht
        rw [htrans, hwin] at ht
        rcases List.mem_cons.mp ht with htt | htw
        · subst htt
          simpa using hW
        · have := List.mem_takeWhile_imp htw
          rw [decide_eq_true_eq] at this
          exact this
    · exact hcv

/-- The transaction store for the concrete smurfing scenario: five
equal sub-threshold transfers into `P` within five hours. -/
def fiveSmurfTxs : List Tx :=
  [⟨"m1", "X1", "P", 9000, 0⟩, ⟨"m2", "X2", "P", 9000, 1⟩,
    ⟨"m3", "X3", "P", 9000, 2⟩, ⟨"m4", "X4", "P", 9000, 3⟩,
    ⟨"m5", "X5", "P", 9000, 4⟩]

/-- The finding produced by the concrete smurfing scenario. -/
def smurfFinding : SmurfingFinding :=
  ⟨"P", 45000, 5, 9000, fiveSmurfTxs, 0, 29/80⟩

set_option maxHeartbeats 4000000 in
/-- `detect_smurfing` evaluated on the concrete smurfing scenario. -/
theorem eval_detect_smurfing :
    detect_smurfing defaultParams none none none none pivotOnlyGraph
      fiveSmurfTxs = [smurfFinding] := by
  simp [detect_smurfing, analyze_smurfing_pattern, orDefault,
    pivotOnlyGraph, fiveSmurfTxs, smurfFinding, pySortAsc, insAsc,
    pySortDesc, insDesc, timeWindows, qMean, qVariance, ratSqrt_zero,
    pyMaxBy_nil, pyMaxBy_cons, pyMaxFold, calculate_smurfing_risk_score,
    defaultParams, filterMap_cons_elim]
  try norm_num [detect_smurfing, analyze_smurfing_pattern, orDefault,
    pivotOnlyGraph, fiveSmurfTxs, smurfFinding, pySortAsc, insAsc,
    pySortDesc, insDesc, timeWindows, qMean, qVariance, ratSqrt_zero,
    pyMaxBy_nil, pyMaxBy_cons, pyMaxFold, calculate_smurfing_risk_score,
    defaultParams, filterMap_cons_elim]

/-- Witness for C6 at the concrete smurfing scenario. -/
theorem smurfing_finding_invariants_witness :
    ((⟨"m1", "X1", "P", 9000, 0⟩ : Tx).receiver_id
        = smurfFinding.pivot_account
      ∧ (⟨"m1", "X1", "P", 9000, 0⟩ : Tx).amount
          < orDefault none defaultParams.smurfing_threshold)
    ∧ smurfFinding.coefficient_of_variation
        ≤ 1 - orDefault none defaultParams.smurfing_amount_ratio := by
  have hmem : smurfFinding ∈ detect_smurfing defaultParams none none none
      none pivotOnlyGraph fiveSmurfTxs := by
    rw [eval_detect_smurfing]
    exact List.mem_singleton.mpr rfl
  have h := smurfing_finding_invariants defaultParams none none none none
    pivotOnlyGraph fiveSmurfTxs (by norm_num [defaultParams])
    smurfFinding hmem
  refine ⟨h.1 ⟨"m1", "X1", "P", 9000, 0⟩ ?_, h.2.2⟩
  show (⟨"m1", "X1", "P", 9000, 0⟩ : Tx) ∈ smurfFinding.transactions
  simp [smurfFinding, fiveSmurfTxs]

/-! ### Hub detection (C7) -/

/-- The hub score as the spec sentence words it:
`0.40·min(max(0, (degree − μ)/σ), 5)/5` (0 when `σ = 0`), plus
`0.30·min(betweenness·10, 1)`, plus `0.30·min(pagerank·10, 1)`,
clamped to `[0, 1]`.  Written from the claim, to be compared with
`calculate_hub_risk_score` from the source. -/
def specHubScore (m : Metrics) (mean std : ℚ) : ℚ :=
  max 0 (min ((4/10)
      * ((if std = 0 then 0
          else min (max 0 ((m.degree_centrality - mean) / std)) 5) / 5)
    + (3/10) * min (m.betweenness_centrality * 10) 1
    + (3/10) * min (m.pagerank * 10) 1) 1)

/-- On every emitted hub (degree above the dynamic threshold, metrics
nonnegative) the source's score coincides with the spec's formula. -/
theorem hub_risk_eq_spec (m : Metrics) (mean std : ℚ) (hstd : 0 ≤ std)
    (hdeg : mean + 2 * std < m.degree_centrality)
    (hb : 0 ≤ m.betweenness_centrality) (hp : 0 ≤ m.pagerank) :
    calculate_hub_risk_score m mean std = specHubScore m mean std := by
  have hB : 0 ≤ min (m.betweenness_centrality * 10) 1 :=
    le_min (mul_nonneg hb (by norm_num)) (by norm_num)
  have hP : 0 ≤ min (m.pagerank * 10) 1 :=
    le_min (mul_nonneg hp (by norm_num)) (by norm_num)
  rcases eq_or_lt_of_le hstd with hz | hpos
  · have hz2 : std = 0 := hz.symm
    subst hz2
    unfold calculate_hub_risk_score specHubScore
    dsimp only
    rw [if_neg (lt_irrefl 0), if_pos rfl]
    have h05 : min (0 : ℚ) 5 = 0 := by norm_num
    rw [h05]
    have hsum : (0 : ℚ) ≤ 0 / 5 * (4/10)
        + min (m.betweenness_centrality * 10) 1 * (3/10)
        + min (m.pagerank * 10) 1 * (3/10) :=
      add_nonneg (add_nonneg (by norm_num) (mul_nonneg hB (by norm_num)))
        (mul_nonneg hP (by norm_num))
    have hAeq : (4/10) * ((0 : ℚ) / 5)
        + (3/10) * min (m.betweenness_centrality * 10) 1
        + (3/10) * min (m.pagerank * 10) 1
        = 0 / 5 * (4/10)
        + min (m.betweenness_centrality * 10) 1 * (3/10)
        + min (m.pagerank * 10) 1 * (3/10) := by ring
    rw [hAeq, max_eq_right (le_min hsum (by norm_num : (0 : ℚ) ≤ 1))]
  · unfold calculate_hub_risk_score specHubScore
    dsimp only
    rw [if_pos hpos, if_neg (ne_of_gt hpos)]
    have hz0 : 2 < (m.degree_centrality - mean) / std := by
      rw [lt_div_iff₀ hpos]
      linarith
    have hmax0 : max 0 ((m.degree_centrality - mean) / std)
        = (m.degree_centrality - mean) / std :=
      max_eq_right (le_of_lt (lt_trans (by norm_num) hz0))
    rw [hmax0]
    have hzmin : 0 ≤ min ((m.degree_centrality - mean) / std) 5 :=
      le_min (le_of_lt (lt_trans (by norm_num) hz0)) (by norm_num)
    have hsum : 0 ≤ min ((m.degree_centrality - mean) / std) 5 / 5 * (4/10)
        + min (m.betweenness_centrality * 10) 1 * (3/10)
        + min (m.pagerank * 10) 1 * (3/10) :=
      add_nonneg (add_nonneg
          (mul_nonneg (div_nonneg hzmin (by norm_num)) (by norm_num))
          (mul_nonneg hB (by norm_num)))
        (mul_nonneg hP (by norm_num))
    have hAeq : (4/10) * (min ((m.degree_centrality - mean) / std) 5 / 5)
        + (3/10) * min (m.betweenness_centrality * 10) 1
        + (3/10) * min (m.pagerank * 10) 1
        = min ((m.degree_centrality - mean) / std) 5 / 5 * (4/10)
        + min (m.betweenness_centrality * 10) 1 * (3/10)
        + min (m.pagerank * 10) 1 * (3/10) := by ring
    rw [hAeq, max_eq_right (le_min hsum (by norm_num : (0 : ℚ) ≤ 1))]

/-- **C7**: hub detection emits a finding exactly for the accounts whose
degree centrality strictly exceeds the dynamic threshold
`max(anomaly_degree_threshold, mean + 2·std)`, each finding carrying the
account's centrality metrics and the spec's score formula (given
nonnegative betweenness and pagerank, as centrality metrics are). -/
theorem hub_detection_membership_and_score (thr : ℚ)
    (mets : List (String × Metrics))
    (hnn : ∀ pm ∈ mets,
      0 ≤ pm.2.betweenness_centrality ∧ 0 ≤ pm.2.pagerank) :
    (∀ f ∈ detect_hub_anomalies thr mets,
      ∃ pm ∈ mets, f.account = pm.1 ∧ f.centrality_metrics = pm.2
        ∧ max thr (qMean (degreeValues mets)
            + 2 * ratSqrt (qVariance (degreeValues mets)))
          < pm.2.degree_centrality
        ∧ f.risk_score = specHubScore pm.2 (qMean (degreeValues mets))
            (ratSqrt (qVariance (degreeValues mets))))
    ∧ ∀ pm ∈ mets,
        max thr (qMean (degreeValues mets)
            + 2 * ratSqrt (qVariance (degreeValues mets)))
          < pm.2.degree_centrality →
        ∃ f ∈ detect_hub_anomalies thr mets, f.account = pm.1
          ∧ f.centrality_metrics = pm.2
          ∧ f.risk_score = specHubScore pm.2 (qMean (degreeValues mets))
              (ratSqrt (qVariance (degreeValues mets))) := by
  constructor
  · intro f hf
    by_cases hemp : degreeValues mets = []
    · simp only [detect_hub_anomalies, if_pos hemp] at hf
      exact absurd hf (List.not_mem_nil f)
    · simp only [detect_hub_anomalies, if_neg hemp] at hf
      rw [List.mem_filterMap] at hf
      obtain ⟨pm, hpm, hsome⟩ := hf
      by_cases hgt : max thr (qMean (degreeValues mets)
          + 2 * ratSqrt (qVariance (degreeValues mets)))
          < pm.2.degree_centrality
      · rw [if_pos hgt, Option.some_inj] at hsome
        subst hsome
        refine ⟨pm, hpm, rfl, rfl, hgt, ?_⟩
        exact hub_risk_eq_spec pm.2 (qMean (degreeValues mets))
          (ratSqrt (qVariance (degreeValues mets)))
          (ratSqrt_nonneg _)
          (lt_of_le_of_lt (le_max_right thr _) hgt)
          (hnn pm hpm).1 (hnn pm hpm).2
      · rw [if_neg hgt] at hsome
        exact absurd hsome (by simp)
  · intro pm hpm hgt
    have hne : mets ≠ [] := List.ne_nil_of_mem hpm
    have hemp : degreeValues mets ≠ [] := by
      rw [degreeValues]
      simpa using hne
    refine ⟨⟨.hub, pm.1, [], 0, [], 0, pm.2,
      calculate_hub_risk_score pm.2 (qMean (degreeValues mets))
        (ratSqrt (qVariance (degreeValues mets)))⟩, ?_, rfl, rfl, ?_⟩
    · simp only [detect_hub_anomalies, if_neg hemp]
      rw [List.mem_filterMap]
      exact ⟨pm, hpm, by rw [if_pos hgt]⟩
    · exact hub_risk_eq_spec pm.2 (qMean (degreeValues mets))
        (ratSqrt (qVariance (degreeValues mets)))
        (ratSqrt_nonneg _)
        (lt_of_le_of_lt (le_max_right thr _) hgt)
        (hnn pm hpm).1 (hnn pm hpm).2

/-- Centrality metrics of the two hub accounts in the concrete hub
scenario. -/
def mHigh : Metrics := ⟨1, 0, 0⟩

/-- Centrality metrics of the eighteen background accounts. -/
def mLow : Metrics := ⟨0, 0, 0⟩

/-- The centrality map of the concrete hub scenario: the accounts `B`
and `A` (in that dict order) both have degree centrality 1, eighteen
others have 0, so the degree mean is 1/10, the standard deviation is
3/10, and the dynamic threshold is 7/10. -/
def hubMets : List (String × Metrics) :=
  [("B", mHigh), ("A", mHigh),
    ("N01", mLow), ("N02", mLow), ("N03", mLow), ("N04", mLow),
    ("N05", mLow), ("N06", mLow), ("N07", mLow), ("N08", mLow),
    ("N09", mLow), ("N10", mLow), ("N11", mLow), ("N12", mLow),
    ("N13", mLow), ("N14", mLow), ("N15", mLow), ("N16", mLow),
    ("N17", mLow), ("N18", mLow)]

theorem hubMets_degrees : degreeValues hubMets
    = [1, 1, 0, 0, 0, 0, 0, 0, 0, 0, 0, 0, 0, 0, 0, 0, 0, 0, 0, 0] := by
  norm_num [degreeValues, hubMets, mHigh, mLow]

theorem hubMets_mean : qMean (degreeValues hubMets) = 1/10 := by
  rw [hubMets_degrees]
  norm_num [qMean]

theorem hubMets_variance : qVariance (degreeValues hubMets) = 9/100 := by
  rw [hubMets_degrees]
  norm_num [qVariance, qMean]

theorem ratSqrt_nine_hundredths : ratSqrt (9/100) = 3/10 := by
  have h9 : Nat.sqrt 9 = 3 := by
    rw [show (9 : ℕ) = 3 * 3 by norm_num]
    exact Nat.sqrt_eq 3
  have h100 : Nat.sqrt 100 = 10 := by
    rw [show (100 : ℕ) = 10 * 10 by norm_num]
    exact Nat.sqrt_eq 10
  have ht : (9 : ℤ).toNat = 9 := rfl
  norm_num [ratSqrt, h9, h100, ht]

theorem hubMets_std : ratSqrt (qVariance (degreeValues hubMets)) = 3/10 := by
  rw [hubMets_variance]
  exact ratSqrt_nine_hundredths

theorem hubMets_nonneg : ∀ pm ∈ hubMets,
    0 ≤ pm.2.betweenness_centrality ∧ 0 ≤ pm.2.pagerank := by
  intro pm hpm
  fin_cases hpm <;> norm_num [mHigh, mLow]

/-- Witness for C7: in the concrete hub scenario, account `B` (degree 1,
above the dynamic threshold 7/10) is emitted with the spec's score. -/
theorem hub_detection_membership_and_score_witness :
    ∃ f ∈ detect_hub_anomalies (1/10) hubMets, f.account = "B"
      ∧ f.centrality_metrics = mHigh
      ∧ f.risk_score = specHubScore mHigh (qMean (degreeValues hubMets))
          (ratSqrt (qVariance (degreeValues hubMets))) := by
  have h := (hub_detection_membership_and_score (1/10) hubMets
    hubMets_nonneg).2 ("B", mHigh) (by simp [hubMets])
  refine h ?_
  rw [hubMets_mean, hubMets_std]
  norm_num [mHigh]

/-! ### Burst detection (C8) -/

/-- The prefix-anchored window starting at index `i` of the scanned
list: the transaction at `i` followed by the subsequent ones until the
time difference first exceeds the window width. -/
def windowAt (W : ℚ) (l : List Tx) (i : Nat) : List Tx :=
  match l.drop i with
  | [] => []
  | t :: rest =>
    t :: rest.takeWhile (fun u => decide (u.timestamp - t.timestamp ≤ W))

theorem windowAt_zero (W : ℚ) (t : Tx) (rest : List Tx) :
    windowAt W (t :: rest) 0
      = t :: rest.takeWhile (fun u => decide (u.timestamp - t.timestamp ≤ W))
      := rfl

theorem windowAt_succ (W : ℚ) (t : Tx) (rest : List Tx) (i : Nat) :
    windowAt W (t :: rest) (i + 1) = windowAt W rest i := rfl

/-- The scan of `_detect_burst_anomalies` stops at the first
prefix-anchored window whose size reaches the threshold. -/
theorem firstBurstWindow_eq_some (thr W : ℚ) :
    ∀ (l : List Tx) (w : List Tx), firstBurstWindow thr W l = some w →
      ∃ i, (∀ j, j < i → ¬ thr ≤ ((windowAt W l j).length : ℚ))
        ∧ thr ≤ ((windowAt W l i).length : ℚ)
        ∧ w = windowAt W l i := by
  intro l
  induction l with
  | nil =>
    intro w hw
    simp [firstBurstWindow] at hw
  | cons t rest ih =>
    intro w hw
    rw [firstBurstWindow] at hw
    by_cases hsz : thr ≤ (((t :: rest.takeWhile
        (fun u => decide (u.timestamp - t.timestamp ≤ W))).length : ℚ))
    · rw [if_pos hsz, Option.some_inj] at hw
      refine ⟨0, ?_, ?_, ?_⟩
      · intro j hj
        exact absurd hj (Nat.not_lt_zero j)
      · rw [windowAt_zero]
        exact hsz
      · rw [windowAt_zero]
        exact hw.symm
    · rw [if_neg hsz] at hw
      obtain ⟨i, hbefore, hsize, hweq⟩ := ih w hw
      refine ⟨i + 1, ?_, ?_, ?_⟩
      · intro j hj
        cases j with
        | zero =>
          rw [windowAt_zero]
          exact hsz
        | succ j2 =>
          rw [windowAt_succ]
          exact hbefore j2 (Nat.lt_of_succ_lt_succ hj)
      · rw [windowAt_succ]
        exact hsize
      · rw [windowAt_succ]
        exact hweq

theorem addToGroup_keys (acc : List (String × List Tx)) (t : Tx) :
    (addToGroup acc t).map Prod.fst
      = if t.sender_id ∈ acc.map Prod.fst then acc.map Prod.fst
        else acc.map Prod.fst ++ [t.sender_id] := by
  induction acc with
  | nil => simp [addToGroup]
  | cons sg rest ih =>
    obtain ⟨s, g⟩ := sg
    by_cases hs : s = t.sender_id
    · subst hs
      simp [addToGroup]
    · rw [show addToGroup ((s, g) :: rest) t
          = (s, g) :: addToGroup rest t by simp [addToGroup, hs]]
      by_cases hmem : t.sender_id ∈ rest.map Prod.fst
      · have : t.sender_id ∈ ((s, g) :: rest).map Prod.fst := by
          simp [hmem]
        rw [if_pos this]
        simp only [List.map_cons, ih, if_pos hmem]
      · have : t.sender_id ∉ ((s, g) :: rest).map Prod.fst := by
          simp [hmem, Ne.symm hs]
        rw [if_neg this]
        simp only [List.map_cons, ih, if_neg hmem]
        rfl

theorem groupBySender_keys_nodup (txs : List Tx) :
    ((groupBySender txs).map Prod.fst).Nodup := by
  have step : ∀ (acc : List (String × List Tx)) (t : Tx),
      (acc.map Prod.fst).Nodup → ((addToGroup acc t).map Prod.fst).Nodup := by
    intro acc t hnd
    rw [addToGroup_keys]
    by_cases hmem : t.sender_id ∈ acc.map Prod.fst
    · rw [if_pos hmem]
      exact hnd
    · rw [if_neg hmem]
      simp [List.nodup_append, hnd, hmem]
  have main : ∀ (l : List Tx) (acc : List (String × List Tx)),
      (acc.map Prod.fst).Nodup →
      ((l.foldl addToGroup acc).map Prod.fst).Nodup := by
    intro l
    induction l with
    | nil => intro acc h; exact h
    | cons t rest ih =>
      intro acc h
      exact ih (addToGroup acc t) (step acc t h)
  exact main txs [] (by simp)

/-- At most one finding per key, for a finding list built by mapping an
association list with distinct keys through a key-preserving partial
function. -/
theorem filterMap_filter_key_le_one
    {F : (String × List Tx) → Option NetFinding}
    (hkey : ∀ sg x, F sg = some x → x.account = sg.1) :
    ∀ (l : List (String × List Tx)), (l.map Prod.fst).Nodup → ∀ s,
      ((l.filterMap F).filter (fun f => decide (f.account = s))).length ≤ 1 := by
  intro l
  induction l with
  | nil =>
    intro _ s
    simp
  | cons sg rest ih =>
    intro hnd s
    rw [List.map_cons, List.nodup_cons] at hnd
    obtain ⟨hout, hndr⟩ := hnd
    cases hF : F sg with
    | none =>
      rw [List.filterMap_cons_none hF]
      exact ih hndr s
    | some x =>
      rw [List.filterMap_cons_some hF]
      by_cases hxs : x.account = s
      · rw [List.filter_cons_of_pos (by simpa using hxs)]
        have hrest : (rest.filterMap F).filter
            (fun f => decide (f.account = s)) = [] := by
          rw [List.filter_eq_nil_iff]
          intro f hf
          rw [List.mem_filterMap] at hf
          obtain ⟨sg2, hsg2, hFf⟩ := hf
          have hacc : f.account = sg2.1 := hkey sg2 f hFf
          have hin : sg2.1 ∈ rest.map Prod.fst :=
            List.mem_map_of_mem Prod.fst hsg2
          have hxacc : x.account = sg.1 := hkey sg x hF
          have hs1 : sg.1 = s := by rw [← hxacc]; exact hxs
          have hneq : sg2.1 ≠ s := by
            intro he
            exact hout (by rw [hs1, ← he]; exact hin)
          simp [hacc, hneq]
        simp [hrest]
      · rw [List.filter_cons_of_neg (by simpa using hxs)]
        exact ih hndr s

/-- The partial function that `_detect_burst_anomalies` maps over the
sender groups. -/
def burstOfGroup (burst_threshold burst_window_hours : ℚ)
    (sg : String × List Tx) : Option NetFinding :=
  if (sg.2.length : ℚ) < burst_threshold then none
  else
    (firstBurstWindow burst_threshold burst_window_hours
        (pySortAsc (fun t => t.timestamp) sg.2)).map (fun w =>
      ⟨.burst, sg.1, [], w.length, w, 0, ⟨0, 0, 0⟩,
        calculate_burst_risk_score w.length burst_threshold
          burst_window_hours⟩)

theorem detect_burst_anomalies_eq (burst_threshold burst_window_hours : ℚ)
    (txs : List Tx) :
    detect_burst_anomalies burst_threshold burst_window_hours txs
      = (groupBySender txs).filterMap
          (burstOfGroup burst_threshold burst_window_hours) := rfl

theorem burstOfGroup_account (thr W : ℚ) (sg : String × List Tx)
    (x : NetFinding) (h : burstOfGroup thr W sg = some x) :
    x.account = sg.1 := by
  unfold burstOfGroup at h
  by_cases hlt : ((sg.2.length : ℚ)) < thr
  · rw [if_pos hlt] at h
    exact absurd h (by simp)
  · rw [if_neg hlt, Option.map_eq_some'] at h
    obtain ⟨w, _, hx⟩ := h
    rw [← hx]

/-- **C8**: burst detection emits at most one finding per sender;
senders with fewer than the threshold outgoing transactions emit none;
and a qualifying sender's single finding carries exactly the first
prefix-anchored window (by start index over its timestamp-sorted
transactions) whose size reaches the threshold. -/
theorem burst_single_finding_first_window (thr W : ℚ) (txs : List Tx) :
    (∀ s, ((detect_burst_anomalies thr W txs).filter
        (fun f => decide (f.account = s))).length ≤ 1)
    ∧ (∀ sg ∈ groupBySender txs, ((sg.2.length : ℚ)) < thr →
        ∀ f ∈ detect_burst_anomalies thr W txs, f.account ≠ sg.1)
    ∧ ∀ f ∈ detect_burst_anomalies thr W txs,
        ∃ sg ∈ groupBySender txs, f.account = sg.1
          ∧ ¬ ((sg.2.length : ℚ)) < thr
          ∧ ∃ i, (∀ j, j < i → ¬ thr ≤ (((windowAt W
                  (pySortAsc (fun t => t.timestamp) sg.2) j).length : ℚ)))
            ∧ thr ≤ (((windowAt W
                (pySortAsc (fun t => t.timestamp) sg.2) i).length : ℚ))
            ∧ f.transactions
                = windowAt W (pySortAsc (fun t => t.timestamp) sg.2) i
            ∧ f.num_transactions = f.transactions.length := by
  refine ⟨?_, ?_, ?_⟩
  · intro s
    rw [detect_burst_anomalies_eq]
    exact filterMap_filter_key_le_one (burstOfGroup_account thr W)
      (groupBySender txs) (groupBySender_keys_nodup txs) s
  · intro sg hsg hlt f hf he
    rw [detect_burst_anomalies_eq, List.mem_filterMap] at hf
    obtain ⟨sg2, hsg2, hF⟩ := hf
    have hacc : f.account = sg2.1 := burstOfGroup_account thr W sg2 f hF
    have heq : sg2 = sg := by
      have hinj := List.inj_on_of_nodup_map (groupBySender_keys_nodup txs)
      exact hinj hsg2 hsg (by rw [← hacc, he])
    subst heq
    unfold burstOfGroup at hF
    rw [if_pos hlt] at hF
    exact absurd hF (by simp)
  · intro f hf
    rw [detect_burst_anomalies_eq, List.mem_filterMap] at hf
    obtain ⟨sg, hsg, hF⟩ := hf
    unfold burstOfGroup at hF
    by_cases hlt : ((sg.2.length : ℚ)) < thr
    · rw [if_pos hlt] at hF
      exact absurd hF (by simp)
    · rw [if_neg hlt, Option.map_eq_some'] at hF
      obtain ⟨w, hw, hx⟩ := hF
      obtain ⟨i, hbefore, hsize, hweq⟩ := firstBurstWindow_eq_some thr W
        (pySortAsc (fun t => t.timestamp) sg.2) w hw
      refine ⟨sg, hsg, ?_, hlt, i, hbefore, hsize, ?_, ?_⟩
      · rw [← hx]
      · rw [← hx]
        exact hweq
      · rw [← hx]

/-- The two transactions of the concrete burst scenario (sender `S`,
one hour apart). -/
def burstTx1 : Tx := ⟨"b1", "S", "R", 50, 0⟩

/-- Second transaction of the concrete burst scenario. -/
def burstTx2 : Tx := ⟨"b2", "S", "R", 60, 1⟩

/-- The finding produced by the concrete burst scenario with a threshold
override of 2 transactions in a 2-hour window. -/
def burstFinding : NetFinding :=
  ⟨.burst, "S", [], 2, [burstTx1, burstTx2], 0, ⟨0, 0, 0⟩, 11/40⟩

set_option maxHeartbeats 2000000 in
/-- `_detect_burst_anomalies` evaluated on the concrete burst
scenario. -/
theorem eval_detect_burst :
    detect_burst_anomalies 2 2 [burstTx1, burstTx2] = [burstFinding] := by
  simp [detect_burst_anomalies, groupBySender, addToGroup, burstTx1,
    burstTx2, burstFinding, firstBurstWindow, pySortAsc, insAsc,
    calculate_burst_risk_score, filterMap_cons_elim]
  try norm_num [detect_burst_anomalies, groupBySender, addToGroup, burstTx1,
    burstTx2, burstFinding, firstBurstWindow, pySortAsc, insAsc,
    calculate_burst_risk_score, filterMap_cons_elim]

/-- Witness for C8 at the concrete burst scenario. -/
theorem burst_single_finding_first_window_witness :
    ∃ sg ∈ groupBySender [burstTx1, burstTx2], burstFinding.account = sg.1
      ∧ ¬ ((sg.2.length : ℚ)) < 2
      ∧ ∃ i, (∀ j, j < i → ¬ (2 : ℚ) ≤ (((windowAt 2
              (pySortAsc (fun t => t.timestamp) sg.2) j).length : ℚ)))
        ∧ (2 : ℚ) ≤ (((windowAt 2
            (pySortAsc (fun t => t.timestamp) sg.2) i).length : ℚ))
        ∧ burstFinding.transactions
            = windowAt 2 (pySortAsc (fun t => t.timestamp) sg.2) i
        ∧ burstFinding.num_transactions
            = burstFinding.transactions.length := by
  refine (burst_single_finding_first_window 2 2 [burstTx1, burstTx2]).2.2
    burstFinding ?_
  rw [eval_detect_burst]
  exact List.mem_singleton.mpr rfl

/-! ### Assembly of network anomalies (C9) -/

theorem detect_network_anomalies_eq (p : DetectionParams)
    (o1 o2 o3 o4 : Option ℚ) (gs : GraphServices) (txs : List Tx) :
    detect_network_anomalies p o1 o2 o3 o4 gs txs
      = pySortDesc (fun f => f.risk_score)
          (detect_hub_anomalies (orDefault o1 p.anomaly_degree_threshold)
              gs.metrics
            ++ detect_burst_anomalies
                (orDefault o2 p.anomaly_burst_threshold)
                (orDefault o3 p.anomaly_burst_window_hours) txs
            ++ detect_isolated_communities
                (orDefault o4 p.anomaly_isolation_threshold)
                gs.communities txs) := rfl

theorem hub_kind (thr : ℚ) (mets : List (String × Metrics)) :
    ∀ f ∈ detect_hub_anomalies thr mets, f.anomaly_type = AnomKind.hub := by
  intro f hf
  by_cases hemp : degreeValues mets = []
  · simp only [detect_hub_anomalies, if_pos hemp] at hf
    exact absurd hf (List.not_mem_nil f)
  · simp only [detect_hub_anomalies, if_neg hemp] at hf
    rw [List.mem_filterMap] at hf
    obtain ⟨pm, _, hsome⟩ := hf
    by_cases hgt : max thr (qMean (degreeValues mets)
        + 2 * ratSqrt (qVariance (degreeValues mets)))
        < pm.2.degree_centrality
    · rw [if_pos hgt, Option.some_inj] at hsome
      rw [← hsome]
    · rw [if_neg hgt] at hsome
      exact absurd hsome (by simp)

theorem burst_kind (thr W : ℚ) (txs : List Tx) :
    ∀ f ∈ detect_burst_anomalies thr W txs,
      f.anomaly_type = AnomKind.burst := by
  intro f hf
  rw [detect_burst_anomalies_eq, List.mem_filterMap] at hf
  obtain ⟨sg, _, hsome⟩ := hf
  unfold burstOfGroup at hsome
  by_cases hlt : ((sg.2.length : ℚ)) < thr
  · rw [if_pos hlt] at hsome
    exact absurd hsome (by simp)
  · rw [if_neg hlt, Option.map_eq_some'] at hsome
    obtain ⟨w, _, hx⟩ := hsome
    rw [← hx]

theorem community_kind (iso : ℚ) (comms : List (List String))
    (txs : List Tx) :
    ∀ f ∈ detect_isolated_communities iso comms txs,
      f.anomaly_type = AnomKind.isolated_community := by
  intro f hf
  unfold detect_isolated_communities at hf
  rw [List.mem_filterMap] at hf
  obtain ⟨c, _, hsome⟩ := hf
  by_cases h1 : c.length < 3
  · rw [if_pos h1] at hsome
    exact absurd hsome (by simp)
  · rw [if_neg h1] at hsome
    dsimp only at hsome
    set A := txs.countP (fun t =>
      decide (t.sender_id ∈ c) && decide (t.receiver_id ∈ c)) with hA
    set B := txs.countP (fun t =>
      (decide (t.sender_id ∈ c) || decide (t.receiver_id ∈ c))
        && !(decide (t.sender_id ∈ c) && decide (t.receiver_id ∈ c)))
      with hB2
    by_cases h2 : A + B = 0
    · rw [if_pos h2] at hsome
      exact absurd hsome (by simp)
    · rw [if_neg h2] at hsome
      by_cases h3 : iso ≤ ((A : ℚ)) / (((A + B : ℕ)) : ℚ)
      · rw [if_pos h3, Option.some_inj] at hsome
        rw [← hsome]
      · rw [if_neg h3] at hsome
        exact absurd hsome (by simp)

/-- **C9** (amended): `network_anomalies` is a permutation of the
hub ++ burst ++ isolated-community concatenation, sorted by risk score
in non-increasing order; the sort is stable, so among findings tied on
risk score the concatenation order survives — in particular the kind
order hub ≤ burst ≤ isolated_community holds on ties — but no further
tie-break by account identifier or community size is applied. -/
theorem network_anomalies_stable_sorted (p : DetectionParams)
    (o1 o2 o3 o4 : Option ℚ) (gs : GraphServices) (txs : List Tx) :
    List.Perm (detect_network_anomalies p o1 o2 o3 o4 gs txs)
        (detect_hub_anomalies (orDefault o1 p.anomaly_degree_threshold)
            gs.metrics
          ++ detect_burst_anomalies (orDefault o2 p.anomaly_burst_threshold)
              (orDefault o3 p.anomaly_burst_window_hours) txs
          ++ detect_isolated_communities
              (orDefault o4 p.anomaly_isolation_threshold)
              gs.communities txs)
    ∧ (detect_network_anomalies p o1 o2 o3 o4 gs txs).Pairwise
        (fun a b => b.risk_score ≤ a.risk_score)
    ∧ (detect_network_anomalies p o1 o2 o3 o4 gs txs).Pairwise
        (fun a b => a.risk_score = b.risk_score →
          kindRank a.anomaly_type ≤ kindRank b.anomaly_type) := by
  rw [detect_network_anomalies_eq]
  refine ⟨pySortDesc_perm _ _, pySortDesc_sorted _ _, ?_⟩
  refine pySortDesc_pairwise (fun f : NetFinding => f.risk_score) ?_ _ ?_
  · intro a b hab he
    exact absurd he.symm (ne_of_lt hab)
  · have hkind : ∀ (l : List NetFinding) (k : AnomKind),
        (∀ f ∈ l, f.anomaly_type = k) →
        l.Pairwise (fun a b => a.risk_score = b.risk_score →
          kindRank a.anomaly_type ≤ kindRank b.anomaly_type) := by
      intro l k hl
      refine List.pairwise_of_forall_mem_list ?_
      intro a ha b hb _
      rw [hl a ha, hl b hb]
    rw [List.pairwise_append]
    refine ⟨?_,
      hkind _ AnomKind.isolated_community (community_kind _ _ _), ?_⟩
    · rw [List.pairwise_append]
      refine ⟨hkind _ AnomKind.hub (hub_kind _ _),
        hkind _ AnomKind.burst (burst_kind _ _ _), ?_⟩
      intro a ha b hb _
      rw [hub_kind _ _ a ha, burst_kind _ _ _ b hb]
      norm_num [kindRank]
    · intro a ha b hb _
      rw [List.mem_append] at ha
      rw [community_kind _ _ _ b hb]
      rcases ha with ha | ha
      · rw [hub_kind _ _ a ha]
        norm_num [kindRank]
      · rw [burst_kind _ _ _ a ha]
        norm_num [kindRank]

/-- The graph oracle of the concrete hub scenario. -/
def gsHub : GraphServices := ⟨[], fun _ => [], hubMets, []⟩

/-- The hub finding for account `B` in the concrete hub scenario. -/
def hubFB : NetFinding := ⟨.hub, "B", [], 0, [], 0, mHigh, 6/25⟩

/-- The hub finding for account `A` in the concrete hub scenario. -/
def hubFA : NetFinding := ⟨.hub, "A", [], 0, [], 0, mHigh, 6/25⟩

theorem eval_hub_anomalies :
    detect_hub_anomalies (1/10) hubMets = [hubFB, hubFA] := by
  have hne : ¬ degreeValues hubMets = [] := by
    rw [hubMets_degrees]
    simp
  unfold detect_hub_anomalies
  rw [if_neg hne]
  dsimp only
  simp only [hubMets_mean, hubMets_std]
  simp [hubMets, mHigh, mLow, calculate_hub_risk_score, hubFB, hubFA,
    filterMap_cons_elim]
  try norm_num [hubMets, mHigh, mLow, calculate_hub_risk_score, hubFB,
    hubFA, filterMap_cons_elim]

/-- `detect_network_anomalies` evaluated on the concrete hub scenario:
two hub findings tied at risk 6/25, kept in centrality-map order
`B` before `A`. -/
theorem eval_network_anomalies_hub :
    detect_network_anomalies defaultParams none none none none gsHub []
      = [hubFB, hubFA] := by
  rw [detect_network_anomalies_eq]
  show pySortDesc (fun f => f.risk_score)
    (detect_hub_anomalies (orDefault none defaultParams.anomaly_degree_threshold)
        gsHub.metrics ++ _ ++ _) = _
  rw [show orDefault none defaultParams.anomaly_degree_threshold
    = 1/10 from rfl]
  rw [show gsHub.metrics = hubMets from rfl, eval_hub_anomalies]
  norm_num [detect_burst_anomalies, groupBySender,
    detect_isolated_communities, pySortDesc, insDesc, hubFB, hubFA]

/-- **C9** (counterexample): in the concrete hub scenario the two hub
findings are tied on risk score, yet the returned order is `B` before
`A` (the centrality-map enumeration order preserved by Python's stable
sort), while the claim's tie-break by account identifier requires `A`
before `B`. -/
theorem network_anomalies_tiebreak_counterexample :
    (detect_network_anomalies defaultParams none none none none gsHub
        []).map (fun f => f.account) = ["B", "A"]
    ∧ (detect_network_anomalies defaultParams none none none none gsHub
        []).map (fun f => f.risk_score) = [6/25, 6/25]
    ∧ (detect_network_anomalies defaultParams none none none none gsHub
        []).map (fun f => f.anomaly_type) = [AnomKind.hub, AnomKind.hub]
    ∧ ("A" : String) < "B" := by
  rw [eval_network_anomalies_hub]
  refine ⟨by simp [hubFB, hubFA], by simp [hubFB, hubFA],
    by simp [hubFB, hubFA], ?_⟩
  rw [String.lt_iff_toList_lt]
  decide

/-! ### Risk score bounds (C4) -/

theorem calculate_cycle_risk_score_bounds (len : Nat) (total : ℚ)
    (amounts : List ℚ) (span : ℚ) (htot : 0 ≤ total) :
    0 ≤ calculate_cycle_risk_score len total amounts span
      ∧ calculate_cycle_risk_score len total amounts span ≤ 1 := by
  unfold calculate_cycle_risk_score
  dsimp only
  constructor
  · refine le_min ?_ (by norm_num)
    have h1 : (0 : ℚ) ≤ min (total / 100000) 1 :=
      le_min (div_nonneg htot (by norm_num)) (by norm_num)
    have h2 : (0 : ℚ) ≤ (if 1 < amounts.length then
        max 0 (1 - if 0 < qMean amounts then
          ratSqrt (qVariance amounts) / qMean amounts else 1) * (25/100)
        else 0) := by
      split
      · exact mul_nonneg (le_max_left 0 _) (by norm_num)
      · exact le_refl 0
    have h3 : (0 : ℚ) ≤ max 0 (1 - span / 72) := le_max_left 0 _
    have h4 : (0 : ℚ) ≤ min ((len : ℚ) / 10) 1 :=
      le_min (div_nonneg (by positivity) (by norm_num)) (by norm_num)
    have := mul_nonneg h1 (by norm_num : (0:ℚ) ≤ 3/10)
    have := mul_nonneg h3 (by norm_num : (0:ℚ) ≤ 25/100)
    have := mul_nonneg h4 (by norm_num : (0:ℚ) ≤ 2/10)
    linarith
  · exact min_le_right _ _

theorem calculate_smurfing_risk_score_bounds (pat : SmurfPattern)
    (total avg thr : ℚ) (htot : 0 ≤ total) (hcv : pat.cv ≤ 1) :
    0 ≤ calculate_smurfing_risk_score pat total avg thr
      ∧ calculate_smurfing_risk_score pat total avg thr ≤ 1 := by
  unfold calculate_smurfing_risk_score
  dsimp only
  constructor
  · refine le_min ?_ (by norm_num)
    have h1 : (0 : ℚ) ≤ min ((pat.transactions.length : ℚ) / 20) 1 :=
      le_min (div_nonneg (by positivity) (by norm_num)) (by norm_num)
    have h2 : (0 : ℚ) ≤ min (total / 200000) 1 :=
      le_min (div_nonneg htot (by norm_num)) (by norm_num)
    have h3 : (0 : ℚ) ≤ max 0 (1 - avg / thr) := le_max_left 0 _
    have h4 : (0 : ℚ) ≤ 1 - pat.cv := by linarith
    have := mul_nonneg h1 (by norm_num : (0:ℚ) ≤ 3/10)
    have := mul_nonneg h2 (by norm_num : (0:ℚ) ≤ 3/10)
    have := mul_nonneg h3 (by norm_num : (0:ℚ) ≤ 2/10)
    have := mul_nonneg h4 (by norm_num : (0:ℚ) ≤ 2/10)
    linarith
  · exact min_le_right _ _

theorem calculate_hub_risk_score_bounds (m : Metrics) (mean std : ℚ)
    (hstd : 0 ≤ std) (hdeg : mean + 2 * std < m.degree_centrality)
    (hb : 0 ≤ m.betweenness_centrality) (hp : 0 ≤ m.pagerank) :
    0 ≤ calculate_hub_risk_score m mean std
      ∧ calculate_hub_risk_score m mean std ≤ 1 := by
  rw [hub_risk_eq_spec m mean std hstd hdeg hb hp]
  unfold specHubScore
  exact ⟨le_max_left 0 _, max_le (by norm_num) (min_le_right _ _)⟩

theorem calculate_burst_risk_score_bounds (numTx : Nat) (thr W : ℚ)
    (hthr : 0 < thr) (hW : 0 < W) :
    0 ≤ calculate_burst_risk_score numTx thr W
      ∧ calculate_burst_risk_score numTx thr W ≤ 1 := by
  unfold calculate_burst_risk_score
  dsimp only
  constructor
  · refine le_min ?_ (by norm_num)
    have h1 : (0 : ℚ) ≤ min ((numTx : ℚ) / (thr * 2)) 1 :=
      le_min (div_nonneg (by positivity) (by positivity)) (by norm_num)
    have h2 : (0 : ℚ) ≤ min ((numTx : ℚ) / W / 20) 1 :=
      le_min (div_nonneg (div_nonneg (by positivity) (le_of_lt hW))
        (by norm_num)) (by norm_num)
    have := mul_nonneg h1 (by norm_num : (0:ℚ) ≤ 5/10)
    have := mul_nonneg h2 (by norm_num : (0:ℚ) ≤ 5/10)
    linarith
  · exact min_le_right _ _

theorem calculate_community_risk_score_bounds (ratio : ℚ) (size : Nat)
    (hr0 : 0 ≤ ratio) :
    0 ≤ calculate_community_risk_score ratio size
      ∧ calculate_community_risk_score ratio size ≤ 1 := by
  unfold calculate_community_risk_score
  dsimp only
  constructor
  · refine le_min ?_ (by norm_num)
    have h2 : (0 : ℚ) ≤ min ((size : ℚ) / 20) 1 :=
      le_min (div_nonneg (by positivity) (by norm_num)) (by norm_num)
    have := mul_nonneg hr0 (by norm_num : (0:ℚ) ≤ 6/10)
    have := mul_nonneg h2 (by norm_num : (0:ℚ) ≤ 4/10)
    linarith
  · exact min_le_right _ _

/-! ### Finding-level inversions shared by the C4 proof -/

theorem mem_hub_anomalies_inv (thr : ℚ) (mets : List (String × Metrics))
    (f : NetFinding) (hf : f ∈ detect_hub_anomalies thr mets) :
    ∃ pm ∈ mets,
      max thr (qMean (degreeValues mets)
          + 2 * ratSqrt (qVariance (degreeValues mets)))
        < pm.2.degree_centrality
      ∧ f.centrality_metrics = pm.2
      ∧ f.risk_score = calculate_hub_risk_score pm.2
          (qMean (degreeValues mets))
          (ratSqrt (qVariance (degreeValues mets))) := by
  by_cases hemp : degreeValues mets = []
  · simp only [detect_hub_anomalies, if_pos hemp] at hf
    exact absurd hf (List.not_mem_nil f)
  · simp only [detect_hub_anomalies, if_neg hemp] at hf
    rw [List.mem_filterMap] at hf
    obtain ⟨pm, hpm, hsome⟩ := hf
    by_cases hgt : max thr (qMean (degreeValues mets)
        + 2 * ratSqrt (qVariance (degreeValues mets)))
        < pm.2.degree_centrality
    · rw [if_pos hgt, Option.some_inj] at hsome
      exact ⟨pm, hpm, hgt, by rw [← hsome], by rw [← hsome]⟩
    · rw [if_neg hgt] at hsome
      exact absurd hsome (by simp)

theorem mem_burst_anomalies_inv (thr W : ℚ) (txs : List Tx)
    (f : NetFinding) (hf : f ∈ detect_burst_anomalies thr W txs) :
    ∃ w : List Tx,
      f.risk_score = calculate_burst_risk_score w.length thr W := by
  rw [detect_burst_anomalies_eq, List.mem_filterMap] at hf
  obtain ⟨sg, _, hsome⟩ := hf
  unfold burstOfGroup at hsome
  by_cases hlt : ((sg.2.length : ℚ)) < thr
  · rw [if_pos hlt] at hsome
    exact absurd hsome (by simp)
  · rw [if_neg hlt, Option.map_eq_some'] at hsome
    obtain ⟨w, _, hx⟩ := hsome
    exact ⟨w, by rw [← hx]⟩

theorem mem_community_anomalies_inv (iso : ℚ) (comms : List (List String))
    (txs : List Tx) (f : NetFinding)
    (hf : f ∈ detect_isolated_communities iso comms txs) :
    ∃ (c : List String) (A B : ℕ), A + B ≠ 0
      ∧ f.risk_score = calculate_community_risk_score
          ((A : ℚ) / (((A + B : ℕ)) : ℚ)) c.length := by
  unfold detect_isolated_communities at hf
  rw [List.mem_filterMap] at hf
  obtain ⟨c, _, hsome⟩ := hf
  by_cases h1 : c.length < 3
  · rw [if_pos h1] at hsome
    exact absurd hsome (by simp)
  · rw [if_neg h1] at hsome
    dsimp only at hsome
    set A := txs.countP (fun t =>
      decide (t.sender_id ∈ c) && decide (t.receiver_id ∈ c)) with hA
    set B := txs.countP (fun t =>
      (decide (t.sender_id ∈ c) || decide (t.receiver_id ∈ c))
        && !(decide (t.sender_id ∈ c) && decide (t.receiver_id ∈ c)))
      with hB2
    by_cases h2 : A + B = 0
    · rw [if_pos h2] at hsome
      exact absurd hsome (by simp)
    · rw [if_neg h2] at hsome
      by_cases h3 : iso ≤ ((A : ℚ)) / (((A + B : ℕ)) : ℚ)
      · rw [if_pos h3, Option.some_inj] at hsome
        exact ⟨c, A, B, h2, by rw [← hsome]⟩
      · rw [if_neg h3] at hsome
        exact absurd hsome (by simp)

theorem mem_of_mem_timeWindows (W : ℚ) (l w : List Tx)
    (hw : w ∈ timeWindows W l) : ∀ u ∈ w, u ∈ l := by
  obtain ⟨pre, t, rest, hsplit, hwin⟩ := mem_timeWindows W l w hw
  intro u hu
  rw [hwin] at hu
  rw [hsplit]
  rcases List.mem_cons.mp hu with h | h
  · subst h
    exact List.mem_append_right pre (List.mem_cons_self u rest)
  · exact List.mem_append_right pre
      (List.mem_cons_of_mem t ((List.takeWhile_sublist _).subset h))

theorem collectReps_mem_txs (txs : List Tx) (cyc : List String) :
    ∀ (idxs : List Nat) (l : List Tx),
      collectReps txs cyc idxs = some l → ∀ x ∈ l, x ∈ txs := by
  intro idxs
  induction idxs with
  | nil =>
    intro l h x hx
    simp only [collectReps, Option.some_inj] at h
    subst h
    exact absurd hx (List.not_mem_nil x)
  | cons i rest ih =>
    intro l h x hx
    simp only [collectReps] at h
    rw [Option.bind_eq_some] at h
    obtain ⟨t, ht, hmap⟩ := h
    rw [Option.map_eq_some'] at hmap
    obtain ⟨ts, hts, hl⟩ := hmap
    subst hl
    rcases List.mem_cons.mp hx with hxt | hxts
    · subst hxt
      exact (mem_edgeTxs txs cyc i x
        (pyMaxBy_mem (fun t => t.timestamp) _ x ht)).1
    · exact ih ts hts x hxts

/-- **C4**: with nonnegative transaction amounts and sane configured
parameters (nonnegative smurfing amount ratio, nonnegative centrality
metrics, burst threshold at least 1, positive burst window), every
finding of each of the three detectors has a risk score in `[0, 1]`,
and each of the three result lists is sorted by risk score in
non-increasing order. -/
theorem risk_scores_bounded_and_sorted (p : DetectionParams)
    (cminL cmaxL cW sthr smin sW sratio adeg abthr abW aiso : Option ℚ)
    (gs : GraphServices) (txs : List Tx)
    (hamt : ∀ t ∈ txs, 0 ≤ t.amount)
    (hratio : 0 ≤ orDefault sratio p.smurfing_amount_ratio)
    (hmets : ∀ pm ∈ gs.metrics,
      0 ≤ pm.2.betweenness_centrality ∧ 0 ≤ pm.2.pagerank)
    (hbthr : 1 ≤ orDefault abthr p.anomaly_burst_threshold)
    (hbW : 0 < orDefault abW p.anomaly_burst_window_hours) :
    ((∀ F ∈ detect_money_laundering_cycles p cminL cmaxL cW gs txs,
        0 ≤ F.risk_score ∧ F.risk_score ≤ 1)
      ∧ (detect_money_laundering_cycles p cminL cmaxL cW gs txs).Pairwise
          (fun a b => b.risk_score ≤ a.risk_score))
    ∧ ((∀ F ∈ detect_smurfing p sthr smin sW sratio gs txs,
        0 ≤ F.risk_score ∧ F.risk_score ≤ 1)
      ∧ (detect_smurfing p sthr smin sW sratio gs txs).Pairwise
          (fun a b => b.risk_score ≤ a.risk_score))
    ∧ ((∀ F ∈ detect_network_anomalies p adeg abthr abW aiso gs txs,
        0 ≤ F.risk_score ∧ F.risk_score ≤ 1)
      ∧ (detect_network_anomalies p adeg abthr abW aiso gs txs).Pairwise
          (fun a b => b.risk_score ≤ a.risk_score)) := by
  refine ⟨⟨?_, ?_⟩, ⟨?_, ?_⟩, ⟨?_, ?_⟩⟩
  · intro F hF
    simp only [detect_money_laundering_cycles] at hF
    rw [mem_pySortDesc, List.mem_filterMap] at hF
    obtain ⟨c, _, heq⟩ := hF
    by_cases hskip : orDefault cmaxL p.cycle_max_length ≠ 0
        ∧ (c.length : ℚ) > orDefault cmaxL p.cycle_max_length
    · rw [if_pos hskip] at heq
      exact absurd heq (by simp)
    · rw [if_neg hskip] at heq
      obtain ⟨reps, hreps, _, _, _, _, _, _, _, hrisk⟩ :=
        analyze_cycle_eq_some txs c
          (orDefault cW p.cycle_time_window_hours) F heq
      have htot : 0 ≤ (reps.map (fun t => t.amount)).sum := by
        refine List.sum_nonneg ?_
        intro a ha
        rw [List.mem_map] at ha
        obtain ⟨t, ht, ha2⟩ := ha
        rw [← ha2]
        exact hamt t (collectReps_mem_txs txs c _ reps hreps t ht)
      rw [hrisk]
      exact calculate_cycle_risk_score_bounds _ _ _ _ htot
  · simp only [detect_money_laundering_cycles]
    exact pySortDesc_sorted _ _
  · intro F hF
    simp only [detect_smurfing] at hF
    rw [mem_pySortDesc, List.mem_filterMap] at hF
    obtain ⟨node, _, heq⟩ := hF
    by_cases hskip : (((txs.filter (fun t =>
        decide (t.receiver_id = node)
          && decide (t.amount < orDefault sthr p.smurfing_threshold))).length
          : ℚ))
        < orDefault smin p.smurfing_min_transactions
    · rw [if_pos hskip] at heq
      exact absurd heq (by simp)
    · rw [if_neg hskip] at heq
      obtain ⟨w, hw, _, _, _, _, _, _, _, hcveq, hcvle, hrisk⟩ :=
        analyze_smurfing_eq_some p node _
          (orDefault sthr p.smurfing_threshold)
          (orDefault sW p.smurfing_time_window_hours)
          (orDefault sratio p.smurfing_amount_ratio) F heq
      have htot : 0 ≤ (w.map (fun t => t.amount)).sum := by
        refine List.sum_nonneg ?_
        intro a ha
        rw [List.mem_map] at ha
        obtain ⟨t, ht, ha2⟩ := ha
        rw [← ha2]
        have h1 : t ∈ pySortAsc (fun t => t.timestamp) _ :=
          mem_of_mem_timeWindows _ _ w hw t ht
        rw [mem_pySortAsc, List.mem_filter] at h1
        exact hamt t h1.1
      have hcv1 : ratSqrt (qVariance (w.map (fun t => t.amount)))
          / qMean (w.map (fun t => t.amount)) ≤ 1 := by
        rw [← hcveq]
        linarith [hcvle, hratio]
      rw [hrisk]
      exact calculate_smurfing_risk_score_bounds _ _ _ _ htot hcv1
  · simp only [detect_smurfing]
    exact pySortDesc_sorted _ _
  · intro F hF
    rw [detect_network_anomalies_eq, mem_pySortDesc,
      List.mem_append] at hF
    rcases hF with hF | hF
    · rw [List.mem_append] at hF
      rcases hF with hF | hF
      · obtain ⟨pm, hpm, hgt, _, hrisk⟩ := mem_hub_anomalies_inv _ _ F hF
        rw [hrisk]
        exact calculate_hub_risk_score_bounds pm.2 _ _
          (ratSqrt_nonneg _)
          (lt_of_le_of_lt (le_max_right _ _) hgt)
          (hmets pm hpm).1 (hmets pm hpm).2
      · obtain ⟨w, hrisk⟩ := mem_burst_anomalies_inv _ _ _ F hF
        rw [hrisk]
        exact calculate_burst_risk_score_bounds w.length _ _
          (lt_of_lt_of_le one_pos hbthr) hbW
    · obtain ⟨c, A, B, hAB, hrisk⟩ :=
        mem_community_anomalies_inv _ _ _ F hF
      rw [hrisk]
      refine calculate_community_risk_score_bounds _ _ ?_
      exact div_nonneg (by positivity) (by positivity)
  · rw [detect_network_anomalies_eq]
    exact pySortDesc_sorted _ _

/-- Witness for C4: in the concrete smurfing scenario the single
finding's risk score lies in `[0, 1]`. -/
theorem risk_scores_bounded_and_sorted_witness :
    0 ≤ smurfFinding.risk_score ∧ smurfFinding.risk_score ≤ 1 := by
  have h := risk_scores_bounded_and_sorted defaultParams
    none none none none none none none none none none none
    pivotOnlyGraph fiveSmurfTxs
    (by
      intro t ht
      fin_cases ht <;> norm_num)
    (by norm_num [defaultParams])
    (by
      intro pm hpm
      exact absurd hpm (List.not_mem_nil pm))
    (by norm_num [defaultParams])
    (by norm_num [defaultParams])
  refine h.2.1.1 smurfFinding ?_
  rw [eval_detect_smurfing]
  exact List.mem_singleton.mpr rfl

end FraudDetector
